import Mathlib

/-!
Verification of the numeric dot-product core of gemma.cpp (`src/ops/dot-inl.h`)
against its natural-language specification.

The development shallowly embeds the kernels over exact rational arithmetic:
an IEEE-754 binary float with unbounded exponent range is modelled as a
rational number, and each floating-point operation of the source is modelled
as the exact rational operation followed by `roundSig p` (round to nearest,
ties to even, significand of `p` bits), with `p = 24` for `float` and
`p = 53` for `double`.  SIMD vectors are lists of lane values and the
hardware lane count is an explicit parameter.

All arithmetic is implemented with kernel-reducible operations (`mkRat` and
integer arithmetic) so that concrete executions can be settled by `decide`.
-/

namespace GemmaDot

/-- Rational addition, implemented reducibly via `mkRat`. -/
def qadd (a b : ℚ) : ℚ := mkRat (a.num * b.den + b.num * a.den) (a.den * b.den)

/-- Rational subtraction, implemented reducibly via `mkRat`. -/
def qsub (a b : ℚ) : ℚ := mkRat (a.num * b.den - b.num * a.den) (a.den * b.den)

/-- Rational multiplication, implemented reducibly via `mkRat`. -/
def qmul (a b : ℚ) : ℚ := mkRat (a.num * b.num) (a.den * b.den)

/-- Rational division, implemented reducibly via `mkRat` (division by zero
yields zero, as for `Rat.div`). -/
def qdiv (a b : ℚ) : ℚ :=
  if 0 ≤ b.num then mkRat (a.num * b.den) (a.den * b.num.natAbs)
  else mkRat (-(a.num * b.den)) (a.den * b.num.natAbs)

/-- Rational negation, implemented reducibly via `mkRat`. -/
def qneg (a : ℚ) : ℚ := mkRat (-a.num) a.den

/-- Reducible strict comparison on ℚ. -/
def qlt (a b : ℚ) : Bool := a.num * b.den < b.num * a.den

/-- Reducible non-strict comparison on ℚ. -/
def qle (a b : ℚ) : Bool := a.num * b.den ≤ b.num * a.den

/-- Reducible absolute value on ℚ (models `hwy::ScalarAbs` / `hn::Abs`). -/
def qabs (a : ℚ) : ℚ := if a.num < 0 then qneg a else a

/-- Reducible floor of a rational, as an integer. -/
def qfloor (a : ℚ) : ℤ := Int.fdiv a.num a.den

/-- Reducible embedding of an integer into ℚ. -/
def ofInt (k : ℤ) : ℚ := mkRat k 1

/-- `pow2 e` is the rational `2 ^ e` for `e : ℤ`, built reducibly. -/
def pow2 (e : ℤ) : ℚ :=
  if 0 ≤ e then mkRat ((2 ^ e.toNat : ℕ) : ℤ) 1 else mkRat 1 (2 ^ (-e).toNat)

/-- Number of binary digits of `n` (first argument is fuel, use `bitlen n n`). -/
def bitlen : ℕ → ℕ → ℕ
  | 0, _ => 0
  | fuel + 1, n => if n ≤ 1 then n else bitlen fuel (n / 2) + 1

/-- Candidate for the binary exponent of `q`, from the bit lengths of its
numerator and denominator (may overshoot by one; `flog2` corrects it). -/
def blq (q : ℚ) : ℤ :=
  ((bitlen q.num.natAbs q.num.natAbs : ℕ) : ℤ) - ((bitlen q.den q.den : ℕ) : ℤ)

/-- Floor of the base-2 logarithm of a positive rational. -/
def flog2 (q : ℚ) : ℤ := if qlt q (pow2 (blq q)) then blq q - 1 else blq q

/-- Round a rational to the nearest integer, ties to even. -/
def rne (x : ℚ) : ℤ :=
  if qlt (qsub x (ofInt (qfloor x))) (mkRat 1 2) then qfloor x
  else if qlt (mkRat 1 2) (qsub x (ofInt (qfloor x))) then qfloor x + 1
  else if qfloor x % 2 = 0 then qfloor x else qfloor x + 1

/-- Round a positive rational to `p` significant bits (round to nearest,
ties to even). -/
def roundCore (p : ℕ) (a : ℚ) : ℚ :=
  qmul (ofInt (rne (qmul a (pow2 ((p : ℤ) - 1 - flog2 a)))))
    (pow2 (flog2 a - ((p : ℤ) - 1)))

/-- Round-to-nearest-even with a significand of `p` bits and unbounded
exponent: the model of IEEE rounding used for every floating-point
operation of the source. -/
def roundSig (p : ℕ) (q : ℚ) : ℚ :=
  if q.num = 0 then 0
  else if q.num < 0 then qneg (roundCore p (qabs q))
  else roundCore p (qabs q)

/-- Rounding of a `float` (binary32) result. -/
def round32 (q : ℚ) : ℚ := roundSig 24 q

/-- Rounding of a `double` (binary64) result. -/
def round64 (q : ℚ) : ℚ := roundSig 53 q

/-! ### SIMD vectors and arithmetic primitives -/

/-- A SIMD vector: a list of lane values. -/
abbrev Vec := List ℚ

/-- Lane-wise rounded addition (`hn::Add`), parametrised by the rounding. -/
def vAdd (r : ℚ → ℚ) (a b : Vec) : Vec :=
  List.zipWith (fun x y => r (qadd x y)) a b

/-- Lane-wise rounded multiplication (`hn::Mul`). -/
def vMul (r : ℚ → ℚ) (a b : Vec) : Vec :=
  List.zipWith (fun x y => r (qmul x y)) a b

/-- Lane-wise fused multiply-add (`hn::MulAdd`): a single rounding of the
exact `w*v + s`. -/
def vMulAdd (r : ℚ → ℚ) (w v s : Vec) : Vec :=
  List.zipWith3 (fun x y z => r (qadd (qmul x y) z)) w v s

/-- Lane-wise absolute value (`hn::Abs`). -/
def vAbs (a : Vec) : Vec := a.map qabs

/-- Modelled from the spec: `TwoSums` from `ops/fp_arith-inl.h` (not under
`src/`).  Error-free sum transform (§6): lane-wise rounded sum together with
the exact residual `a + b - round(a + b)`. -/
def TwoSums (r : ℚ → ℚ) (a b : Vec) : Vec × Vec :=
  (List.zipWith (fun x y => r (qadd x y)) a b,
   List.zipWith (fun x y => qsub (qadd x y) (r (qadd x y))) a b)

/-- Modelled from the spec: `TwoProducts` from `ops/fp_arith-inl.h` (not
under `src/`).  Error-free product transform (§6): lane-wise rounded product
together with the exact residual `a * b - round(a * b)`. -/
def TwoProducts (r : ℚ → ℚ) (a b : Vec) : Vec × Vec :=
  (List.zipWith (fun x y => r (qmul x y)) a b,
   List.zipWith (fun x y => qsub (qmul x y) (r (qmul x y))) a b)

/-- Modelled from the spec: hwy `ReduceSum` (external): horizontal reduction
of the lanes of one vector, as a left fold of rounded additions. -/
def ReduceSum (r : ℚ → ℚ) (v : Vec) : ℚ :=
  v.foldl (fun acc x => r (qadd acc x)) 0

/-- Modelled from the spec: `UpdateCascadedSums` from `ops/fp_arith-inl.h`
(not under `src/`): add `x` into the cascaded `(sum, err)` pair — two-sum
into the running sum, and accumulate the exact residual into the error
accumulator (glossary: compensated summation). -/
def UpdateCascadedSums (x s e : Vec) : Vec × Vec :=
  ((TwoSums round32 s x).1, vAdd round32 e (TwoSums round32 s x).2)

/-- Modelled from the spec: `AssimilateCascadedSums` from
`ops/fp_arith-inl.h` (not under `src/`), §4.3: fold the pair
`(sFrom, cFrom)` into `(sTo, cTo)` — two-sum the sums and accumulate both
the consumed compensation and the residual. -/
def AssimilateCascadedSums (sFrom cFrom sTo cTo : Vec) : Vec × Vec :=
  ((TwoSums round32 sTo sFrom).1,
   vAdd round32 cTo (vAdd round32 cFrom (TwoSums round32 sTo sFrom).2))

/-- Modelled from the spec: `ReduceCascadedSums` from `ops/fp_arith-inl.h`
(not under `src/`), §4.3: one final horizontal reduction of the combined
sum plus residual compensation, returning a single float. -/
def ReduceCascadedSums (s c : Vec) : ℚ :=
  round32 (qadd (ReduceSum round32 s) (ReduceSum round32 c))

/-! ### Accumulator state and the two kernels (from `ops/dot-inl.h`) -/

/-- The kernel state: four independent partial sums `s0..s3` and their four
paired compensation accumulators `c0..c3` (unused by `DotKernelDouble`). -/
structure Acc where
  s0 : Vec
  s1 : Vec
  s2 : Vec
  s3 : Vec
  c0 : Vec
  c1 : Vec
  c2 : Vec
  c3 : Vec

/-- All-zero accumulators with `L` lanes. -/
def Acc.init (L : ℕ) : Acc :=
  ⟨List.replicate L 0, List.replicate L 0, List.replicate L 0, List.replicate L 0,
   List.replicate L 0, List.replicate L 0, List.replicate L 0, List.replicate L 0⟩

namespace DotKernelDouble

/-- `DotKernelDouble::Update4` (dot-inl.h:168-176): four independent f64
fused multiply-adds; the compensation registers are untouched. -/
def Update4 (w0 w1 w2 w3 v0 v1 v2 v3 : Vec) (a : Acc) : Acc :=
  { a with
    s0 := vMulAdd round64 w0 v0 a.s0
    s1 := vMulAdd round64 w1 v1 a.s1
    s2 := vMulAdd round64 w2 v2 a.s2
    s3 := vMulAdd round64 w3 v3 a.s3 }

/-- `DotKernelDouble::Update1` (dot-inl.h:178-182). -/
def Update1 (w0 v0 : Vec) (a : Acc) : Acc :=
  { a with s0 := vMulAdd round64 w0 v0 a.s0 }

/-- `DotKernelDouble::Reduce` (dot-inl.h:184-192): pairwise-add the four
accumulators, reduce across lanes, cast to float. -/
def Reduce (a : Acc) : ℚ :=
  round32 (ReduceSum round64
    (vAdd round64 (vAdd round64 a.s0 a.s1) (vAdd round64 a.s2 a.s3)))

end DotKernelDouble

namespace DotKernelCompensated

/-- `DotKernelCompensated::Update4`, Raw = float path (dot-inl.h:212-233):
per group, `TwoProducts` then `TwoSums`, and both residuals accumulated
into the paired compensation register. -/
def Update4 (w0 w1 w2 w3 v0 v1 v2 v3 : Vec) (a : Acc) : Acc :=
  ⟨(TwoSums round32 (TwoProducts round32 w0 v0).1 a.s0).1,
   (TwoSums round32 (TwoProducts round32 w1 v1).1 a.s1).1,
   (TwoSums round32 (TwoProducts round32 w2 v2).1 a.s2).1,
   (TwoSums round32 (TwoProducts round32 w3 v3).1 a.s3).1,
   vAdd round32 a.c0 (vAdd round32 (TwoProducts round32 w0 v0).2
     (TwoSums round32 (TwoProducts round32 w0 v0).1 a.s0).2),
   vAdd round32 a.c1 (vAdd round32 (TwoProducts round32 w1 v1).2
     (TwoSums round32 (TwoProducts round32 w1 v1).1 a.s1).2),
   vAdd round32 a.c2 (vAdd round32 (TwoProducts round32 w2 v2).2
     (TwoSums round32 (TwoProducts round32 w2 v2).1 a.s2).2),
   vAdd round32 a.c3 (vAdd round32 (TwoProducts round32 w3 v3).2
     (TwoSums round32 (TwoProducts round32 w3 v3).1 a.s3).2)⟩

/-- `DotKernelCompensated::Update1`, Raw = float path (dot-inl.h:261-271). -/
def Update1 (w0 v0 : Vec) (a : Acc) : Acc :=
  { a with
    s0 := (TwoSums round32 (TwoProducts round32 w0 v0).1 a.s0).1
    c0 := vAdd round32 a.c0 (vAdd round32 (TwoProducts round32 w0 v0).2
      (TwoSums round32 (TwoProducts round32 w0 v0).1 a.s0).2) }

/-- Modelled from the spec: `WidenMulPairwiseAdd` (external, §4.3/§9): each
pair of narrow (BF16) lanes is widened, the two products are exact, and
their pairwise sum is rounded once into a single float lane. -/
def WidenMulPairwiseAdd : Vec → Vec → Vec
  | a :: b :: ws, c :: d :: vs =>
      round32 (qadd (qmul a c) (qmul b d)) :: WidenMulPairwiseAdd ws vs
  | _, _ => []

/-- `DotKernelCompensated::Update4`, Raw = BF16 path (dot-inl.h:236-258):
products via `WidenMulPairwiseAdd`, no product error tracking; only the
summation residual feeds the compensation register. -/
def Update4BF16 (w0 w1 w2 w3 v0 v1 v2 v3 : Vec) (a : Acc) : Acc :=
  ⟨(TwoSums round32 (WidenMulPairwiseAdd w0 v0) a.s0).1,
   (TwoSums round32 (WidenMulPairwiseAdd w1 v1) a.s1).1,
   (TwoSums round32 (WidenMulPairwiseAdd w2 v2) a.s2).1,
   (TwoSums round32 (WidenMulPairwiseAdd w3 v3) a.s3).1,
   vAdd round32 a.c0 (TwoSums round32 (WidenMulPairwiseAdd w0 v0) a.s0).2,
   vAdd round32 a.c1 (TwoSums round32 (WidenMulPairwiseAdd w1 v1) a.s1).2,
   vAdd round32 a.c2 (TwoSums round32 (WidenMulPairwiseAdd w2 v2) a.s2).2,
   vAdd round32 a.c3 (TwoSums round32 (WidenMulPairwiseAdd w3 v3) a.s3).2⟩

/-- `DotKernelCompensated::Update1`, Raw = BF16 path (dot-inl.h:274-285). -/
def Update1BF16 (w0 v0 : Vec) (a : Acc) : Acc :=
  { a with
    s0 := (TwoSums round32 (WidenMulPairwiseAdd w0 v0) a.s0).1
    c0 := vAdd round32 a.c0 (TwoSums round32 (WidenMulPairwiseAdd w0 v0) a.s0).2 }

/-- `DotKernelCompensated::Reduce` (dot-inl.h:287-295): assimilate the four
cascaded pairs pairwise, then one final cascaded reduction. -/
def Reduce (a : Acc) : ℚ :=
  let p01 := AssimilateCascadedSums a.s1 a.c1 a.s0 a.c0
  let p23 := AssimilateCascadedSums a.s3 a.c3 a.s2 a.c2
  let pf := AssimilateCascadedSums p23.1 p23.2 p01.1 p01.2
  ReduceCascadedSums pf.1 pf.2

end DotKernelCompensated

/-! ### The generic decompress-and-reduce driver (spec-modelled) -/

/-- The `i`-th group of `L` consecutive operand pairs. -/
def grp (l : List (ℚ × ℚ)) (i L : ℕ) : List (ℚ × ℚ) := (l.drop (i * L)).take L

/-- Weight lanes of a group. -/
def wOf (g : List (ℚ × ℚ)) : Vec := g.map Prod.fst

/-- Vector lanes of a group. -/
def vOf (g : List (ℚ × ℚ)) : Vec := g.map Prod.snd

/-- Modelled from the spec (§4.4): main loop of `DecompressAndCall` from
`compression/compress-inl.h` (not under `src/`): consume blocks of four
vectors (`4*L` decoded elements) with the four-wide update.  First argument
of the recursion is fuel ≥ the list length. -/
def mainLoop (upd4 : Vec → Vec → Vec → Vec → Vec → Vec → Vec → Vec → Acc → Acc)
    (L : ℕ) : ℕ → List (ℚ × ℚ) → Acc → Acc × List (ℚ × ℚ)
  | 0, l, a => (a, l)
  | fuel + 1, l, a =>
    if 0 < L ∧ 4 * L ≤ l.length then
      mainLoop upd4 L fuel (l.drop (4 * L))
        (upd4 (wOf (grp l 0 L)) (wOf (grp l 1 L)) (wOf (grp l 2 L))
          (wOf (grp l 3 L)) (vOf (grp l 0 L)) (vOf (grp l 1 L))
          (vOf (grp l 2 L)) (vOf (grp l 3 L)) a)
    else (a, l)

/-- Modelled from the spec (§4.4): zero-pad the remainder into whole vectors
of `L` lanes (`DecompressAndZeroPad`); decompression pads with zeros. -/
def padChunks (L : ℕ) : ℕ → List (ℚ × ℚ) → List (List (ℚ × ℚ))
  | 0, _ => []
  | fuel + 1, l =>
    if l.isEmpty then []
    else (l.take L ++ List.replicate (L - l.length) ((0 : ℚ), (0 : ℚ))) ::
      padChunks L fuel (l.drop L)

/-- Modelled from the spec (§4.4): the generic decompress-and-reduce driver
`DecompressAndCall` from `compression/compress-inl.h` (not under `src/`).
Operands arrive as already-decoded lane values (decoding is an external
capability); `L` is the raw lane count of one vector and `a0` the initial
accumulator state.  Blocks of four vectors feed the four-wide update; the
zero-padded remainder feeds the single-wide update one vector at a time;
finally the kernel's reduction produces one scalar. -/
def DecompressAndCall (L : ℕ) (a0 : Acc)
    (upd4 : Vec → Vec → Vec → Vec → Vec → Vec → Vec → Vec → Acc → Acc)
    (upd1 : Vec → Vec → Acc → Acc) (red : Acc → ℚ) (w v : List ℚ) : ℚ :=
  red (((padChunks L (mainLoop upd4 L (List.zip w v).length (List.zip w v) a0).2.length
      (mainLoop upd4 L (List.zip w v).length (List.zip w v) a0).2)).foldl
    (fun a c => upd1 (wOf c) (vOf c) a)
    (mainLoop upd4 L (List.zip w v).length (List.zip w v) a0).1)

/-! ### Type-based kernel selection (dot-inl.h:298-308) -/

/-- Operand element types handled by the dot product. -/
inductive GType
  | F32
  | BF16
  | SFP
  | NUQ
deriving DecidableEq

/-- Whether a type is single-precision float (`IsF32`). -/
def isF32 : GType → Bool
  | .F32 => true
  | _ => false

/-- Modelled from the spec (§4.1): `CanDecompressToDouble` from
`compression/compress-inl.h` (not under `src/`): promotion of both operand
types to double is lossless exactly when both are single-precision floats
(narrow and quantized types take the compensated path, §4.1). -/
def CanDecompressToDouble (wt vt : GType) : Bool := isF32 wt && isF32 vt

/-- The two kernel strategies. -/
inductive KernelChoice
  | double
  | compensated
deriving DecidableEq

/-- `DotKernelDefault` (dot-inl.h:298-300): compile-time choice by type
pair. -/
def DotKernelDefault (wt vt : GType) : KernelChoice :=
  if CanDecompressToDouble wt vt then .double else .compensated

/-- The compensated kernel's raw type (dot-inl.h:207-208): float if either
operand is f32, BF16 otherwise. -/
inductive RawKind
  | rawF32
  | rawBF16
deriving DecidableEq

/-- `DotKernelCompensated::Raw` selection (dot-inl.h:207-208). -/
def RawOfCompensated (wt vt : GType) : RawKind :=
  if isF32 wt || isF32 vt then .rawF32 else .rawBF16

/-- Run `DotKernelDouble` through the driver; `N` is the raw (f64) lane
count of one vector. -/
def runDotDouble (N : ℕ) (w v : List ℚ) : ℚ :=
  DecompressAndCall N (Acc.init N) DotKernelDouble.Update4
    DotKernelDouble.Update1 DotKernelDouble.Reduce w v

/-- Run `DotKernelCompensated` on the float raw path; `N` is the f32 lane
count. -/
def runDotCompensatedF32 (N : ℕ) (w v : List ℚ) : ℚ :=
  DecompressAndCall N (Acc.init N) DotKernelCompensated.Update4
    DotKernelCompensated.Update1 DotKernelCompensated.Reduce w v

/-- Run `DotKernelCompensated` on the BF16 raw path: raw vectors carry
`2*N` narrow lanes, the float state carries `N` lanes. -/
def runDotCompensatedBF16 (N : ℕ) (w v : List ℚ) : ℚ :=
  DecompressAndCall (2 * N) (Acc.init N) DotKernelCompensated.Update4BF16
    DotKernelCompensated.Update1BF16 DotKernelCompensated.Reduce w v

/-- Run the compensated kernel with the raw path selected by the type pair. -/
def runDotCompensated (wt vt : GType) (N : ℕ) (w v : List ℚ) : ℚ :=
  match RawOfCompensated wt vt with
  | .rawF32 => runDotCompensatedF32 N w v
  | .rawBF16 => runDotCompensatedBF16 N w v

/-- `Dot` (dot-inl.h:303-308): span-plus-offset entry point.  `wt`/`vt` are
the operand element types, `N` the abstract lane count, `w` the decoded
weight span, `wofs` the weight offset, `v` the dense vector (its length is
`num`). -/
def Dot (wt vt : GType) (N : ℕ) (w : List ℚ) (wofs : ℕ) (v : List ℚ) : ℚ :=
  match DotKernelDefault wt vt with
  | .double => runDotDouble N ((w.drop wofs).take v.length) v
  | .compensated => runDotCompensated wt vt N ((w.drop wofs).take v.length) v

/-- `Dot` adapter for two raw pointers (dot-inl.h:311-315): no offset, no
scale. -/
def DotPtrs (wt vt : GType) (N : ℕ) (w v : List ℚ) : ℚ :=
  Dot wt vt N w 0 v

/-- `Dot` adapter for `std::array<float, kCapacity>` (dot-inl.h:318-323):
weights are floats; no scale. -/
def DotStdArray (vt : GType) (N : ℕ) (w : List ℚ) (wofs : ℕ) (v : List ℚ) : ℚ :=
  Dot .F32 vt N w wofs v

/-- Modelled from the spec: `CompressedArray` from `compression/compress.h`
(not under `src/`): a quantized weight array carrying decoded values and a
stored scale (§3 Scale). -/
structure CompressedArrayM where
  data : List ℚ
  scale : ℚ

/-- `Dot` adapter for `CompressedArray` (dot-inl.h:326-332): the stored
scale multiplies the unscaled reduction once (one float rounding). -/
def DotCompressedArray (mt vt : GType) (N : ℕ) (ca : CompressedArrayM)
    (wofs : ℕ) (v : List ℚ) : ℚ :=
  round32 (qmul ca.scale (Dot mt vt N ca.data wofs v))

/-! ### ConditionNumber (dot-inl.h:51-158) -/

/-- Accumulator state of `ConditionNumber`: cascaded signed and absolute
sums with their error registers. -/
structure CAcc where
  sum : Vec
  sumErr : Vec
  sumAbs : Vec
  sumAbsErr : Vec

/-- All-zero `ConditionNumber` state with `N` lanes (dot-inl.h:62-65). -/
def CAcc.init (N : ℕ) : CAcc :=
  ⟨List.replicate N 0, List.replicate N 0, List.replicate N 0, List.replicate N 0⟩

/-- Loop body for two product vectors (dot-inl.h:76-81): cascade the signed
products, then their absolute values. -/
def condStep2 (m0 m1 : Vec) (a : CAcc) : CAcc :=
  ⟨(UpdateCascadedSums m1 (UpdateCascadedSums m0 a.sum a.sumErr).1
      (UpdateCascadedSums m0 a.sum a.sumErr).2).1,
   (UpdateCascadedSums m1 (UpdateCascadedSums m0 a.sum a.sumErr).1
      (UpdateCascadedSums m0 a.sum a.sumErr).2).2,
   (UpdateCascadedSums (vAbs m1) (UpdateCascadedSums (vAbs m0) a.sumAbs a.sumAbsErr).1
      (UpdateCascadedSums (vAbs m0) a.sumAbs a.sumAbsErr).2).1,
   (UpdateCascadedSums (vAbs m1) (UpdateCascadedSums (vAbs m0) a.sumAbs a.sumAbsErr).1
      (UpdateCascadedSums (vAbs m0) a.sumAbs a.sumAbsErr).2).2⟩

/-- Loop body for one product vector (dot-inl.h:97-99). -/
def condStep1 (m : Vec) (a : CAcc) : CAcc :=
  ⟨(UpdateCascadedSums m a.sum a.sumErr).1,
   (UpdateCascadedSums m a.sum a.sumErr).2,
   (UpdateCascadedSums (vAbs m) a.sumAbs a.sumAbsErr).1,
   (UpdateCascadedSums (vAbs m) a.sumAbs a.sumAbsErr).2⟩

/-- Main loop of the two-operand `ConditionNumber` (dot-inl.h:71-83): two
vectors of products per iteration.  First argument is fuel. -/
def condLoop (N : ℕ) : ℕ → List (ℚ × ℚ) → CAcc → CAcc × List (ℚ × ℚ)
  | 0, l, a => (a, l)
  | fuel + 1, l, a =>
    if 0 < N ∧ 2 * N ≤ l.length then
      condLoop N fuel (l.drop (2 * N))
        (condStep2 (vMul round32 (wOf (grp l 0 N)) (vOf (grp l 0 N)))
          (vMul round32 (wOf (grp l 1 N)) (vOf (grp l 1 N))) a)
    else (a, l)

/-- State of the two-operand `ConditionNumber` after the main loop and the
zero-padded remainder loop (dot-inl.h:70-101). -/
def condState (N : ℕ) (w v : List ℚ) : CAcc :=
  (padChunks N (condLoop N (List.zip w v).length (List.zip w v) (CAcc.init N)).2.length
      (condLoop N (List.zip w v).length (List.zip w v) (CAcc.init N)).2).foldl
    (fun a c => condStep1 (vMul round32 (wOf c) (vOf c)) a)
    (condLoop N (List.zip w v).length (List.zip w v) (CAcc.init N)).1

/-- The absolute reduced signed sum `div` (dot-inl.h:103). -/
def condDiv (N : ℕ) (w v : List ℚ) : ℚ :=
  qabs (ReduceCascadedSums (condState N w v).sum (condState N w v).sumErr)

/-- The reduced absolute-product sum (dot-inl.h:105). -/
def condAbs (N : ℕ) (w v : List ℚ) : ℚ :=
  ReduceCascadedSums (condState N w v).sumAbs (condState N w v).sumAbsErr

/-- Result of `ConditionNumber`: a finite double or positive infinity. -/
inductive CondResult
  | inf
  | val (q : ℚ)
deriving DecidableEq

/-- `ConditionNumber(w, v, num)` (dot-inl.h:55-109): `2·sum(|w.*v|)/|sum(w.*v)|`
with cascaded f32 sums and the final ratio in double; positive infinity when
the reduced signed sum is exactly zero. -/
def ConditionNumber (N : ℕ) (w v : List ℚ) : CondResult :=
  if condDiv N w v = 0 then .inf
  else .val (round64 (qdiv (qmul (ofInt 2) (condAbs N w v)) (condDiv N w v)))

/-- Group extraction for a plain vector. -/
def grpV (l : List ℚ) (i N : ℕ) : Vec := (l.drop (i * N)).take N

/-- Main loop of the single-operand `ConditionNumber` (dot-inl.h:127-136):
no product step. -/
def condLoopV (N : ℕ) : ℕ → List ℚ → CAcc → CAcc × List ℚ
  | 0, l, a => (a, l)
  | fuel + 1, l, a =>
    if 0 < N ∧ 2 * N ≤ l.length then
      condLoopV N fuel (l.drop (2 * N)) (condStep2 (grpV l 0 N) (grpV l 1 N) a)
    else (a, l)

/-- Zero-padded remainder chunks for a plain vector. -/
def padChunksV (N : ℕ) : ℕ → List ℚ → List Vec
  | 0, _ => []
  | fuel + 1, l =>
    if l.isEmpty then []
    else (l.take N ++ List.replicate (N - l.length) (0 : ℚ)) ::
      padChunksV N fuel (l.drop N)

/-- State of the single-operand `ConditionNumber` (dot-inl.h:126-150). -/
def condStateV (N : ℕ) (v : List ℚ) : CAcc :=
  (padChunksV N (condLoopV N v.length v (CAcc.init N)).2.length
      (condLoopV N v.length v (CAcc.init N)).2).foldl
    (fun a c => condStep1 c a) (condLoopV N v.length v (CAcc.init N)).1

/-- The absolute reduced signed sum of the single-operand overload
(dot-inl.h:152). -/
def condDivV (N : ℕ) (v : List ℚ) : ℚ :=
  qabs (ReduceCascadedSums (condStateV N v).sum (condStateV N v).sumErr)

/-- The reduced absolute sum of the single-operand overload (dot-inl.h:154). -/
def condAbsV (N : ℕ) (v : List ℚ) : ℚ :=
  ReduceCascadedSums (condStateV N v).sumAbs (condStateV N v).sumAbsErr

/-- `ConditionNumber(v, num)` (dot-inl.h:112-158): the single-operand
overload, which skips the product. -/
def ConditionNumberV (N : ℕ) (v : List ℚ) : CondResult :=
  if condDivV N v = 0 then .inf
  else .val (round64 (qdiv (qmul (ofInt 2) (condAbsV N v)) (condDivV N v)))

/-- Reference double-precision dot product: sequential fused accumulation
of the exact products in f64. -/
def refDot64 (w v : List ℚ) : ℚ :=
  (List.zip w v).foldl (fun s p => round64 (qadd s (qmul p.1 p.2))) 0

/-! ### Predicates used to state exactness hypotheses (reducible, so that
concrete instances can be settled by `decide`) -/

/-- The products of a list of operand pairs. -/
def prods (l : List (ℚ × ℚ)) : List ℚ := l.map (fun p => qmul p.1 p.2)

/-- Reducible sum of a list of lane values. -/
def listSum (l : List ℚ) : ℚ := l.foldr qadd 0

/-- Reducible sum of absolute values of a list of lane values. -/
def absSum (l : List ℚ) : ℚ := l.foldr (fun x acc => qadd (qabs x) acc) 0

/-- Every value of the list is an integer. -/
def allInt (l : List ℚ) : Prop := ∀ x ∈ l, x.den = 1

instance (l : List ℚ) : Decidable (allInt l) :=
  inferInstanceAs (Decidable (∀ x ∈ l, x.den = 1))

/-- The exact (infinite-precision) dot product. -/
def dotExact (w v : List ℚ) : ℚ := listSum (prods (List.zip w v))

/-- Invariant of an exact integer run: correct lane counts, integer partial
sums, and all-zero compensation registers. -/
def AccInv (L : ℕ) (a : Acc) : Prop :=
  a.s0.length = L ∧ a.s1.length = L ∧ a.s2.length = L ∧ a.s3.length = L ∧
  allInt a.s0 ∧ allInt a.s1 ∧ allInt a.s2 ∧ allInt a.s3 ∧
  a.c0 = List.replicate L 0 ∧ a.c1 = List.replicate L 0 ∧
  a.c2 = List.replicate L 0 ∧ a.c3 = List.replicate L 0

/-- Total of the partial-sum lanes. -/
def laneSum (a : Acc) : ℚ :=
  listSum a.s0 + listSum a.s1 + listSum a.s2 + listSum a.s3

/-- Total of the absolute values of the partial-sum lanes. -/
def laneAbs (a : Acc) : ℚ :=
  absSum a.s0 + absSum a.s1 + absSum a.s2 + absSum a.s3

/-- A rounding that is exact on integers of magnitude at most `2^24`
(both `round32` and `round64` satisfy this). -/
def Exact24 (r : ℚ → ℚ) : Prop :=
  ∀ q : ℚ, q.den = 1 → |q| ≤ (2 : ℚ) ^ (24 : ℕ) → r q = q

end GemmaDot

namespace GemmaDot

/-! ### Bridges from the reducible operations to Mathlib's ℚ algebra -/

theorem qadd_eq (a b : ℚ) : qadd a b = a + b := by
  have h1 : a + b = (a.num : ℚ) / (a.den : ℚ) + (b.num : ℚ) / (b.den : ℚ) := by
    rw [Rat.num_div_den, Rat.num_div_den]
  rw [qadd, Rat.mkRat_eq_div, h1]
  push_cast
  field_simp

theorem qsub_eq (a b : ℚ) : qsub a b = a - b := by
  have h1 : a - b = (a.num : ℚ) / (a.den : ℚ) - (b.num : ℚ) / (b.den : ℚ) := by
    rw [Rat.num_div_den, Rat.num_div_den]
  rw [qsub, Rat.mkRat_eq_div, h1]
  push_cast
  field_simp
  ring

theorem qmul_eq (a b : ℚ) : qmul a b = a * b := by
  have h1 : a * b = (a.num : ℚ) / (a.den : ℚ) * ((b.num : ℚ) / (b.den : ℚ)) := by
    rw [Rat.num_div_den, Rat.num_div_den]
  rw [qmul, Rat.mkRat_eq_div, h1]
  push_cast
  field_simp

theorem qneg_eq (a : ℚ) : qneg a = -a := by
  have h1 : -a = -((a.num : ℚ) / (a.den : ℚ)) := by rw [Rat.num_div_den]
  rw [qneg, Rat.mkRat_eq_div, h1]
  push_cast
  field_simp

theorem qdiv_eq (a b : ℚ) : qdiv a b = a / b := by
  rcases lt_trichotomy b.num 0 with hb | hb | hb
  · have hble : ¬ (0 ≤ b.num) := by omega
    have habsq : ((b.num.natAbs : ℚ)) = -(b.num : ℚ) := by
      rw [Int.cast_natAbs, Int.cast_abs, abs_of_neg (by exact_mod_cast hb : ((b.num : ℚ)) < 0)]
    have h1 : a / b = (a.num : ℚ) / (a.den : ℚ) / ((b.num : ℚ) / (b.den : ℚ)) := by
      rw [Rat.num_div_den, Rat.num_div_den]
    have hbq : ((b.num : ℚ)) ≠ 0 := by
      intro h
      have : b.num = 0 := by exact_mod_cast h
      omega
    rw [qdiv, if_neg hble, Rat.mkRat_eq_div, h1]
    push_cast
    rw [habsq]
    field_simp
  · have hb0 : b = 0 := Rat.num_eq_zero.mp hb
    subst hb0
    rw [qdiv]
    norm_num [Rat.mkRat_eq_div]
  · have hble : (0 ≤ b.num) := le_of_lt hb
    have habsq : ((b.num.natAbs : ℚ)) = (b.num : ℚ) := by
      rw [Int.cast_natAbs, Int.cast_abs, abs_of_nonneg (by exact_mod_cast hble : (0:ℚ) ≤ (b.num : ℚ))]
    have h1 : a / b = (a.num : ℚ) / (a.den : ℚ) / ((b.num : ℚ) / (b.den : ℚ)) := by
      rw [Rat.num_div_den, Rat.num_div_den]
    have hbq : ((b.num : ℚ)) ≠ 0 := by
      intro h
      have : b.num = 0 := by exact_mod_cast h
      omega
    rw [qdiv, if_pos hble, Rat.mkRat_eq_div, h1]
    push_cast
    rw [habsq]
    field_simp

theorem qlt_iff (a b : ℚ) : qlt a b = true ↔ a < b := by
  have h1 : ((a.num : ℚ) / (a.den : ℚ) < (b.num : ℚ) / (b.den : ℚ)) ↔ a < b := by
    rw [Rat.num_div_den, Rat.num_div_den]
  rw [div_lt_div_iff (by positivity) (by positivity)] at h1
  simp only [qlt, decide_eq_true_eq, ← h1]
  constructor
  · intro h
    exact_mod_cast h
  · intro h
    exact_mod_cast h

theorem qle_iff (a b : ℚ) : qle a b = true ↔ a ≤ b := by
  have h1 : ((a.num : ℚ) / (a.den : ℚ) ≤ (b.num : ℚ) / (b.den : ℚ)) ↔ a ≤ b := by
    rw [Rat.num_div_den, Rat.num_div_den]
  rw [div_le_div_iff (by positivity) (by positivity)] at h1
  simp only [qle, decide_eq_true_eq, ← h1]
  constructor
  · intro h
    exact_mod_cast h
  · intro h
    exact_mod_cast h

theorem qabs_eq (a : ℚ) : qabs a = |a| := by
  rw [qabs]
  rcases lt_or_le a.num 0 with h | h
  · rw [if_pos h, qneg_eq, abs_of_neg (Rat.num_neg.mp h)]
  · rw [if_neg (not_lt.mpr h), abs_of_nonneg (Rat.num_nonneg.mp h)]

theorem ofInt_eq (k : ℤ) : ofInt k = (k : ℚ) := by
  rw [ofInt, Rat.mkRat_eq_div]
  norm_num

theorem pow2_eq (e : ℤ) : pow2 e = (2 : ℚ) ^ e := by
  rw [pow2]
  rcases le_or_lt 0 e with h | h
  · rw [if_pos h, Rat.mkRat_eq_div]
    push_cast
    rw [div_one, ← zpow_natCast (2 : ℚ) e.toNat, Int.toNat_of_nonneg h]
  · obtain ⟨m, hm⟩ : ∃ m : ℕ, e = -(m : ℤ) := ⟨(-e).toNat, by omega⟩
    subst hm
    rw [if_neg (not_le.mpr h), Rat.mkRat_eq_div, show (-(-(m:ℤ))).toNat = m by omega]
    push_cast
    rw [one_div, zpow_neg, zpow_natCast]

theorem roundSig_zero (p : ℕ) : roundSig p 0 = 0 := by
  rw [roundSig, if_pos]
  rfl

/-! ### Rounding is the identity on integers of at most `p` bits -/

theorem bitlen_spec : ∀ (fuel n : ℕ), n ≤ fuel → 0 < n →
    2 ^ (bitlen fuel n - 1) ≤ n ∧ n < 2 ^ (bitlen fuel n) ∧ 1 ≤ bitlen fuel n := by
  intro fuel
  induction fuel with
  | zero => intro n h1 h2; omega
  | succ fuel ih =>
    intro n h1 h2
    rw [bitlen]
    by_cases hn : n ≤ 1
    · have hone : n = 1 := by omega
      subst hone
      norm_num
    · rw [if_neg hn]
      obtain ⟨ha, hb, hc⟩ := ih (n / 2) (by omega) (by omega)
      refine ⟨?_, ?_, by omega⟩
      · have h3 : 2 ^ (bitlen fuel (n / 2) - 1 + 1) = 2 ^ (bitlen fuel (n / 2) - 1) * 2 :=
          pow_succ 2 _
        have h4 : bitlen fuel (n / 2) - 1 + 1 = bitlen fuel (n / 2) := by omega
        rw [Nat.add_sub_cancel]
        rw [← h4, h3]
        omega
      · have h3 : 2 ^ (bitlen fuel (n / 2) + 1) = 2 ^ bitlen fuel (n / 2) * 2 :=
          pow_succ 2 _
        rw [h3]
        omega

theorem qfloor_intCast (w : ℤ) : qfloor ((w : ℚ)) = w := by
  rw [qfloor, Rat.num_intCast, Rat.den_intCast]
  exact_mod_cast Int.fdiv_one w

theorem mkRat_half : (mkRat 1 2 : ℚ) = 1 / 2 := by
  rw [Rat.mkRat_eq_div]
  norm_num

theorem rne_intCast (w : ℤ) : rne ((w : ℚ)) = w := by
  have hf : qsub ((w : ℚ)) (ofInt (qfloor ((w : ℚ)))) = 0 := by
    rw [qfloor_intCast, qsub_eq, ofInt_eq, sub_self]
  have hcond : qlt (qsub ((w : ℚ)) (ofInt (qfloor ((w : ℚ))))) (mkRat 1 2) = true := by
    rw [qlt_iff, hf, mkRat_half]
    norm_num
  rw [rne, if_pos hcond, qfloor_intCast]

theorem flog2_natCast (m : ℕ) (hm : 0 < m) :
    flog2 ((m : ℚ)) = ((bitlen m m : ℕ) : ℤ) - 1 := by
  obtain ⟨ha, hb, hc⟩ := bitlen_spec m m le_rfl hm
  have hnum : ((m : ℚ)).num.natAbs = m := by
    rw [Rat.num_natCast, Int.natAbs_ofNat]
  have hden : ((m : ℚ)).den = 1 := Rat.den_natCast m
  have hb1 : bitlen 1 1 = 1 := rfl
  have hblq : blq ((m : ℚ)) = ((bitlen m m : ℕ) : ℤ) - 1 := by
    rw [blq, hnum, hden, hb1]
    omega
  have hexp : blq ((m : ℚ)) = (((bitlen m m - 1 : ℕ) : ℕ) : ℤ) := by
    rw [hblq]
    omega
  have hcond : qlt ((m : ℚ)) (pow2 (blq ((m : ℚ)))) = false := by
    rw [← Bool.not_eq_true, qlt_iff]
    rw [hexp, pow2_eq, zpow_natCast]
    push_cast
    exact not_lt.mpr (by exact_mod_cast ha)
  rw [flog2, hcond]
  simp only [Bool.false_eq_true, if_false]
  exact hblq

theorem roundCore_natCast (p : ℕ) (hp : 0 < p) (m : ℕ) (h1 : 0 < m)
    (h2 : m ≤ 2 ^ p) : roundCore p ((m : ℚ)) = (m : ℚ) := by
  obtain ⟨ha, hb, hc⟩ := bitlen_spec m m le_rfl h1
  have hflog : flog2 ((m : ℚ)) = ((bitlen m m : ℕ) : ℤ) - 1 := flog2_natCast m h1
  rcases lt_or_eq_of_le h2 with hlt | heq
  · -- m < 2 ^ p, so the exponent is at most p - 1
    have hble : bitlen m m ≤ p := by
      by_contra hgt
      push_neg at hgt
      have : 2 ^ p ≤ 2 ^ (bitlen m m - 1) := Nat.pow_le_pow_right (by norm_num) (by omega)
      omega
    have hd : ((p : ℤ) - 1 - flog2 ((m : ℚ))) = (((p - bitlen m m : ℕ) : ℕ) : ℤ) := by
      rw [hflog]
      push_cast [Nat.cast_sub hble]
      ring
    have hx : qmul ((m : ℚ)) (pow2 ((p : ℤ) - 1 - flog2 ((m : ℚ)))) =
        (((m * 2 ^ (p - bitlen m m) : ℕ) : ℤ) : ℚ) := by
      rw [qmul_eq, hd, pow2_eq, zpow_natCast]
      push_cast
      ring
    have hrne : rne (qmul ((m : ℚ)) (pow2 ((p : ℤ) - 1 - flog2 ((m : ℚ))))) =
        ((m * 2 ^ (p - bitlen m m) : ℕ) : ℤ) := by
      rw [hx, rne_intCast]
    rw [roundCore, hrne, ofInt_eq, qmul_eq, pow2_eq]
    have he2 : flog2 ((m : ℚ)) - ((p : ℤ) - 1) = -(((p - bitlen m m : ℕ) : ℕ) : ℤ) := by
      rw [hflog]
      push_cast [Nat.cast_sub hble]
      ring
    rw [he2, zpow_neg, zpow_natCast]
    push_cast
    field_simp
  · -- m = 2 ^ p exactly
    have hbp : bitlen m m = p + 1 := by
      have hb2 : 2 ^ (bitlen m m - 1) ≤ 2 ^ p := by omega
      have hb3 : 2 ^ p < 2 ^ bitlen m m := by omega
      have h4 : bitlen m m - 1 ≤ p := by
        by_contra hgt
        push_neg at hgt
        have : 2 ^ (p + 1) ≤ 2 ^ (bitlen m m - 1) := Nat.pow_le_pow_right (by norm_num) (by omega)
        have : 2 ^ p < 2 ^ (p + 1) := Nat.pow_lt_pow_right (by norm_num) (by omega)
        omega
      have h5 : p < bitlen m m := by
        by_contra hle
        push_neg at hle
        have : 2 ^ bitlen m m ≤ 2 ^ p := Nat.pow_le_pow_right (by norm_num) hle
        omega
      omega
    have hd : ((p : ℤ) - 1 - flog2 ((m : ℚ))) = -1 := by
      rw [hflog, hbp]
      push_cast
      ring
    have hx : qmul ((m : ℚ)) (pow2 ((p : ℤ) - 1 - flog2 ((m : ℚ)))) =
        (((2 ^ (p - 1) : ℕ) : ℤ) : ℚ) := by
      rw [qmul_eq, hd, pow2_eq, heq]
      push_cast
      rw [← zpow_natCast (2 : ℚ) p, ← zpow_natCast (2 : ℚ) (p - 1),
        ← zpow_add₀ (two_ne_zero : (2 : ℚ) ≠ 0)]
      congr 1
      push_cast [Nat.cast_sub (by omega : 1 ≤ p)]
      ring
    have hrne : rne (qmul ((m : ℚ)) (pow2 ((p : ℤ) - 1 - flog2 ((m : ℚ))))) =
        ((2 ^ (p - 1) : ℕ) : ℤ) := by
      rw [hx, rne_intCast]
    rw [roundCore, hrne, ofInt_eq, qmul_eq, pow2_eq]
    have he2 : flog2 ((m : ℚ)) - ((p : ℤ) - 1) = 1 := by
      rw [hflog, hbp]
      push_cast
      ring
    rw [he2, heq]
    push_cast
    rw [zpow_one, ← pow_succ]
    congr 1
    omega

theorem roundSig_intCast (p : ℕ) (hp : 0 < p) (k : ℤ) (hk : k.natAbs ≤ 2 ^ p) :
    roundSig p ((k : ℚ)) = (k : ℚ) := by
  rcases lt_trichotomy k 0 with hneg | hzero | hpos
  · have hnum : ((k : ℚ)).num = k := Rat.num_intCast k
    have habs : qabs ((k : ℚ)) = ((k.natAbs : ℕ) : ℚ) := by
      rw [qabs_eq, Int.cast_natAbs, Int.cast_abs]
    rw [roundSig, hnum, if_neg (by omega), if_pos (by omega), habs,
      roundCore_natCast p hp k.natAbs (by omega) hk, qneg_eq]
    rw [Int.cast_natAbs, Int.cast_abs, abs_of_neg (by exact_mod_cast hneg : ((k : ℚ)) < 0)]
    ring
  · subst hzero
    rw [show (((0 : ℤ) : ℚ)) = 0 by norm_num]
    exact roundSig_zero p
  · have hnum : ((k : ℚ)).num = k := Rat.num_intCast k
    have habs : qabs ((k : ℚ)) = ((k.natAbs : ℕ) : ℚ) := by
      rw [qabs_eq, Int.cast_natAbs, Int.cast_abs]
    rw [roundSig, hnum, if_neg (by omega), if_neg (by omega), habs,
      roundCore_natCast p hp k.natAbs (by omega) hk]
    rw [Int.cast_natAbs, Int.cast_abs, abs_of_pos (by exact_mod_cast hpos : (0 : ℚ) < (k : ℚ))]

end GemmaDot


namespace GemmaDot

/-! ### Basic list-level lemmas for the exactness development -/

theorem listSum_nil : listSum [] = 0 := rfl

theorem listSum_cons (x : ℚ) (l : List ℚ) : listSum (x :: l) = x + listSum l := by
  simp [listSum, qadd_eq]

theorem absSum_nil : absSum [] = 0 := rfl

theorem absSum_cons (x : ℚ) (l : List ℚ) : absSum (x :: l) = |x| + absSum l := by
  simp [absSum, qadd_eq, qabs_eq]

theorem listSum_append (a b : List ℚ) :
    listSum (a ++ b) = listSum a + listSum b := by
  induction a with
  | nil => simp [listSum_nil, listSum_cons]
  | cons x a ih => simp only [List.cons_append, listSum_cons, ih]; ring

theorem absSum_append (a b : List ℚ) :
    absSum (a ++ b) = absSum a + absSum b := by
  induction a with
  | nil => simp [absSum_nil, absSum_cons]
  | cons x a ih => simp only [List.cons_append, absSum_cons, ih]; ring

theorem absSum_nonneg (l : List ℚ) : 0 ≤ absSum l := by
  induction l with
  | nil => simp [absSum_nil]
  | cons x l ih =>
    rw [absSum_cons]
    have := abs_nonneg x
    linarith

theorem abs_listSum_le (l : List ℚ) : |listSum l| ≤ absSum l := by
  induction l with
  | nil => simp [listSum_nil, absSum_nil]
  | cons x l ih =>
    rw [listSum_cons, absSum_cons]
    calc |x + listSum l| ≤ |x| + |listSum l| := abs_add _ _
    _ ≤ |x| + absSum l := by linarith

theorem mem_abs_le_absSum (l : List ℚ) (x : ℚ) (hx : x ∈ l) : |x| ≤ absSum l := by
  induction l with
  | nil => cases hx
  | cons y l ih =>
    rw [absSum_cons]
    rcases List.mem_cons.mp hx with h | h
    · subst h
      have := absSum_nonneg l
      linarith
    · have := ih h
      have := abs_nonneg y
      linarith

theorem listSum_replicate_zero (n : ℕ) : listSum (List.replicate n 0) = 0 := by
  induction n with
  | zero => rfl
  | succ n ih => rw [List.replicate_succ, listSum_cons, ih, add_zero]

theorem absSum_replicate_zero (n : ℕ) : absSum (List.replicate n 0) = 0 := by
  induction n with
  | zero => rfl
  | succ n ih => rw [List.replicate_succ, absSum_cons, ih, abs_zero, add_zero]

theorem allInt_int (q : ℚ) (h : q.den = 1) : ∃ k : ℤ, q = (k : ℚ) :=
  ⟨q.num, (Rat.coe_int_num_of_den_eq_one h).symm⟩

theorem int_allInt (k : ℤ) : ((k : ℚ)).den = 1 := Rat.den_intCast k

theorem allInt_add (a b : ℚ) (ha : a.den = 1) (hb : b.den = 1) : (a + b).den = 1 := by
  obtain ⟨x, rfl⟩ := allInt_int a ha
  obtain ⟨y, rfl⟩ := allInt_int b hb
  rw [← Int.cast_add]
  exact int_allInt _

theorem allInt_zero : ((0 : ℚ)).den = 1 := rfl

/-- Rounding with at least 24 significand bits is the identity on integers
bounded by `2^24`. -/
theorem roundP_exact (p : ℕ) (hp : 24 ≤ p) (q : ℚ) (hq : q.den = 1)
    (hb : |q| ≤ (2 : ℚ) ^ (24 : ℕ)) : roundSig p q = q := by
  obtain ⟨k, rfl⟩ := allInt_int q hq
  apply roundSig_intCast p (by omega)
  have h1 : ((k.natAbs : ℚ)) ≤ (2 : ℚ) ^ (24 : ℕ) := by
    rw [Int.cast_natAbs, Int.cast_abs]
    exact hb
  have h2 : (k.natAbs : ℚ) ≤ ((2 ^ 24 : ℕ) : ℚ) := by
    push_cast
    exact h1
  have h3 : k.natAbs ≤ 2 ^ 24 := by exact_mod_cast h2
  calc k.natAbs ≤ 2 ^ 24 := h3
  _ ≤ 2 ^ p := Nat.pow_le_pow_right (by norm_num) hp

end GemmaDot

namespace GemmaDot

/-! ### Exactness of the vector primitives on bounded integer lanes -/

theorem round32_exact24 : Exact24 round32 :=
  fun q h1 h2 => roundP_exact 24 le_rfl q h1 h2

theorem round64_exact24 : Exact24 round64 :=
  fun q h1 h2 => roundP_exact 53 (by norm_num) q h1 h2

theorem exact24_zero (r : ℚ → ℚ) (hr : Exact24 r) : r 0 = 0 :=
  hr 0 rfl (by norm_num)

theorem vAdd_exact (r : ℚ → ℚ) (hr : Exact24 r) :
    ∀ a b : List ℚ, a.length = b.length → allInt a → allInt b →
    absSum a + absSum b ≤ (2 : ℚ) ^ (24 : ℕ) →
    vAdd r a b = List.zipWith (· + ·) a b ∧
    List.zipWith (fun x y => qsub (qadd x y) (r (qadd x y))) a b =
      List.replicate a.length 0 := by
  intro a
  induction a with
  | nil =>
    intro b _ _ _ _
    simp [vAdd]
  | cons x a ih =>
    intro b hlen hia hib hbd
    cases b with
    | nil => simp at hlen
    | cons y b =>
      have hx : x.den = 1 := hia x (List.mem_cons_self _ _)
      have hy : y.den = 1 := hib y (List.mem_cons_self _ _)
      have hta : allInt a := fun z hz => hia z (List.mem_cons_of_mem x hz)
      have htb : allInt b := fun z hz => hib z (List.mem_cons_of_mem y hz)
      have hna := absSum_nonneg a
      have hnb := absSum_nonneg b
      have hxa := abs_nonneg x
      have hya := abs_nonneg y
      rw [absSum_cons, absSum_cons] at hbd
      have hkey : r (qadd x y) = x + y := by
        rw [qadd_eq]
        refine hr (x + y) (allInt_add x y hx hy) ?_
        calc |x + y| ≤ |x| + |y| := abs_add x y
        _ ≤ (2 : ℚ) ^ (24 : ℕ) := by linarith
      obtain ⟨ha1, ha2⟩ := ih b (by simpa using hlen) hta htb (by linarith)
      constructor
      · rw [vAdd] at ha1 ⊢
        simp only [List.zipWith_cons_cons, hkey, ha1]
      · simp only [List.zipWith_cons_cons, List.length_cons, List.replicate_succ, ha2]
        rw [show qsub (qadd x y) (r (qadd x y)) = 0 by
          rw [qsub_eq, hkey, qadd_eq, sub_self]]

theorem TwoSums_exact (r : ℚ → ℚ) (hr : Exact24 r) (a b : List ℚ)
    (hlen : a.length = b.length) (hia : allInt a) (hib : allInt b)
    (hbd : absSum a + absSum b ≤ (2 : ℚ) ^ (24 : ℕ)) :
    TwoSums r a b = (List.zipWith (· + ·) a b, List.replicate a.length 0) := by
  obtain ⟨h1, h2⟩ := vAdd_exact r hr a b hlen hia hib hbd
  rw [TwoSums]
  rw [vAdd] at h1
  rw [h1, h2]

theorem TwoProducts_exact (r : ℚ → ℚ) (hr : Exact24 r) :
    ∀ a b : List ℚ, a.length = b.length →
    allInt (List.zipWith (fun x y => qmul x y) a b) →
    absSum (List.zipWith (fun x y => qmul x y) a b) ≤ (2 : ℚ) ^ (24 : ℕ) →
    TwoProducts r a b =
      (List.zipWith (fun x y => qmul x y) a b, List.replicate a.length 0) := by
  intro a
  induction a with
  | nil =>
    intro b _ _ _
    simp [TwoProducts]
  | cons x a ih =>
    intro b hlen hip hbd
    cases b with
    | nil => simp at hlen
    | cons y b =>
      simp only [List.zipWith_cons_cons] at hip hbd
      have hxy : (qmul x y).den = 1 := hip _ (List.mem_cons_self _ _)
      have htp : allInt (List.zipWith (fun x y => qmul x y) a b) :=
        fun z hz => hip z (List.mem_cons_of_mem _ hz)
      rw [absSum_cons] at hbd
      have hna := absSum_nonneg (List.zipWith (fun x y => qmul x y) a b)
      have habs := abs_nonneg (qmul x y)
      have hkey : r (qmul x y) = qmul x y := hr (qmul x y) hxy (by linarith)
      have hrec := ih b (by simpa using hlen) htp (by linarith)
      rw [TwoProducts] at hrec ⊢
      simp only [List.zipWith_cons_cons, List.length_cons, List.replicate_succ, hkey,
        Prod.mk.injEq] at hrec ⊢
      refine ⟨by rw [hrec.1], ?_⟩
      rw [hrec.2]
      simp [qsub_eq, hkey]

theorem zipWith3_nil_left (f : ℚ → ℚ → ℚ → ℚ) (v s : List ℚ) :
    List.zipWith3 f [] v s = [] := by
  cases v <;> cases s <;> rfl

theorem zipWith3_cons (f : ℚ → ℚ → ℚ → ℚ) (x y z : ℚ) (w v s : List ℚ) :
    List.zipWith3 f (x :: w) (y :: v) (z :: s) =
      f x y z :: List.zipWith3 f w v s := rfl

theorem vMulAdd_exact (r : ℚ → ℚ) (hr : Exact24 r) :
    ∀ w v s : List ℚ, w.length = v.length → v.length = s.length →
    allInt (List.zipWith (fun x y => qmul x y) w v) → allInt s →
    absSum (List.zipWith (fun x y => qmul x y) w v) + absSum s ≤ (2 : ℚ) ^ (24 : ℕ) →
    vMulAdd r w v s =
      List.zipWith (· + ·) (List.zipWith (fun x y => qmul x y) w v) s := by
  intro w
  induction w with
  | nil =>
    intro v s _ _ _ _ _
    rw [vMulAdd, zipWith3_nil_left]
    rfl
  | cons x w ih =>
    intro v s hlen1 hlen2 hip his hbd
    cases v with
    | nil => simp at hlen1
    | cons y v =>
      cases s with
      | nil => simp at hlen2
      | cons z s =>
        simp only [List.zipWith_cons_cons] at hip hbd
        have hxy : (qmul x y).den = 1 := hip _ (List.mem_cons_self _ _)
        have hz : z.den = 1 := his z (List.mem_cons_self _ _)
        have htp : allInt (List.zipWith (fun x y => qmul x y) w v) :=
          fun u hu => hip u (List.mem_cons_of_mem _ hu)
        have hts : allInt s := fun u hu => his u (List.mem_cons_of_mem z hu)
        rw [absSum_cons, absSum_cons] at hbd
        have hna := absSum_nonneg (List.zipWith (fun x y => qmul x y) w v)
        have hns := absSum_nonneg s
        have h1 := abs_nonneg (qmul x y)
        have h2 := abs_nonneg z
        have hkey : r (qadd (qmul x y) z) = qmul x y + z := by
          rw [qadd_eq]
          refine hr _ (allInt_add _ _ hxy hz) ?_
          calc |qmul x y + z| ≤ |qmul x y| + |z| := abs_add _ _
          _ ≤ (2 : ℚ) ^ (24 : ℕ) := by linarith
        have hrec := ih v s (by simpa using hlen1) (by simpa using hlen2) htp hts
          (by linarith)
        rw [vMulAdd] at hrec ⊢
        rw [zipWith3_cons, hkey, hrec]
        simp [List.zipWith_cons_cons, qadd_eq]

theorem ReduceSum_go (r : ℚ → ℚ) (hr : Exact24 r) :
    ∀ (l : List ℚ) (acc : ℚ), allInt l → acc.den = 1 →
    |acc| + absSum l ≤ (2 : ℚ) ^ (24 : ℕ) →
    List.foldl (fun a x => r (qadd a x)) acc l = acc + listSum l := by
  intro l
  induction l with
  | nil =>
    intro acc _ _ _
    simp [listSum_nil]
  | cons x l ih =>
    intro acc hil hacc hbd
    have hx : x.den = 1 := hil x (List.mem_cons_self _ _)
    have htl : allInt l := fun z hz => hil z (List.mem_cons_of_mem x hz)
    rw [absSum_cons] at hbd
    have hna := absSum_nonneg l
    have h1 := abs_nonneg x
    have h2 := abs_nonneg acc
    have hkey : r (qadd acc x) = acc + x := by
      rw [qadd_eq]
      refine hr _ (allInt_add _ _ hacc hx) ?_
      calc |acc + x| ≤ |acc| + |x| := abs_add _ _
      _ ≤ (2 : ℚ) ^ (24 : ℕ) := by linarith
    rw [List.foldl_cons, hkey]
    have hb2 : |acc + x| + absSum l ≤ (2 : ℚ) ^ (24 : ℕ) := by
      have := abs_add acc x
      linarith
    rw [ih (acc + x) htl (allInt_add _ _ hacc hx) hb2, listSum_cons]
    ring

theorem ReduceSum_exact (r : ℚ → ℚ) (hr : Exact24 r) (l : List ℚ)
    (hil : allInt l) (hbd : absSum l ≤ (2 : ℚ) ^ (24 : ℕ)) :
    ReduceSum r l = listSum l := by
  rw [ReduceSum, ReduceSum_go r hr l 0 hil rfl (by simpa using hbd), zero_add]

theorem vAdd_zeros (r : ℚ → ℚ) (hr : Exact24 r) (n : ℕ) :
    vAdd r (List.replicate n 0) (List.replicate n 0) = List.replicate n 0 := by
  induction n with
  | zero => rfl
  | succ n ih =>
    rw [List.replicate_succ, vAdd, List.zipWith_cons_cons]
    rw [vAdd] at ih
    rw [ih, show r (qadd 0 0) = 0 by rw [qadd_eq, add_zero]; exact exact24_zero r hr]

theorem ReduceSum_zeros (r : ℚ → ℚ) (hr : Exact24 r) (n : ℕ) :
    ReduceSum r (List.replicate n 0) = 0 := by
  rw [ReduceSum_exact r hr _ (fun x hx => by rw [List.eq_of_mem_replicate hx]; exact allInt_zero)
    (by rw [absSum_replicate_zero]; norm_num), listSum_replicate_zero]

/-! ### Pure algebra of exact zip sums -/

theorem zipAdd_allInt : ∀ a b : List ℚ, allInt a → allInt b →
    allInt (List.zipWith (· + ·) a b) := by
  intro a
  induction a with
  | nil => intro b _ _; simp [allInt]
  | cons x a ih =>
    intro b hia hib
    cases b with
    | nil => simp [allInt]
    | cons y b =>
      intro z hz
      simp only [List.zipWith_cons_cons] at hz
      rcases List.mem_cons.mp hz with h | h
      · subst h
        exact allInt_add x y (hia x (List.mem_cons_self _ _)) (hib y (List.mem_cons_self _ _))
      · exact ih b (fun u hu => hia u (List.mem_cons_of_mem x hu))
          (fun u hu => hib u (List.mem_cons_of_mem y hu)) z h

theorem absSum_zipAdd_le : ∀ a b : List ℚ, a.length = b.length →
    absSum (List.zipWith (· + ·) a b) ≤ absSum a + absSum b := by
  intro a
  induction a with
  | nil => intro b _; simp only [List.zipWith_nil_left, absSum_nil, zero_add]; exact absSum_nonneg b
  | cons x a ih =>
    intro b hlen
    cases b with
    | nil => simp at hlen
    | cons y b =>
      simp only [List.zipWith_cons_cons, absSum_cons]
      have h1 := abs_add x y
      have h2 := ih b (by simpa using hlen)
      linarith

theorem listSum_zipAdd : ∀ a b : List ℚ, a.length = b.length →
    listSum (List.zipWith (· + ·) a b) = listSum a + listSum b := by
  intro a
  induction a with
  | nil =>
    intro b hlen
    cases b with
    | nil => simp [listSum_nil]
    | cons y b => simp at hlen
  | cons x a ih =>
    intro b hlen
    cases b with
    | nil => simp at hlen
    | cons y b =>
      simp only [List.zipWith_cons_cons, listSum_cons]
      rw [ih b (by simpa using hlen)]
      ring

theorem zipWith_mul_wv : ∀ g : List (ℚ × ℚ),
    List.zipWith (fun x y => qmul x y) (wOf g) (vOf g) = prods g := by
  intro g
  induction g with
  | nil => rfl
  | cons p g ih =>
    simp only [wOf, vOf, prods, List.map_cons, List.zipWith_cons_cons] at ih ⊢
    rw [show List.zipWith (fun x y => qmul x y) (List.map Prod.fst g)
      (List.map Prod.snd g) = List.map (fun p => qmul p.1 p.2) g from ih]

theorem wOf_length (g : List (ℚ × ℚ)) : (wOf g).length = g.length :=
  List.length_map g _

theorem vOf_length (g : List (ℚ × ℚ)) : (vOf g).length = g.length :=
  List.length_map g _

theorem prods_length (g : List (ℚ × ℚ)) : (prods g).length = g.length :=
  List.length_map g _

theorem prods_append (g h : List (ℚ × ℚ)) :
    prods (g ++ h) = prods g ++ prods h := List.map_append _ g h

end GemmaDot

namespace GemmaDot

/-! ### Group-level exactness for both kernels -/

theorem allInt_append (a b : List ℚ) (ha : allInt a) (hb : allInt b) :
    allInt (a ++ b) := by
  intro x hx
  rcases List.mem_append.mp hx with h | h
  · exact ha x h
  · exact hb x h

theorem allInt_mono (g l : List ℚ) (hsub : ∀ x ∈ g, x ∈ l) (hl : allInt l) :
    allInt g := fun x hx => hl x (hsub x hx)

theorem allInt_replicate_zero (n : ℕ) : allInt (List.replicate n 0) :=
  fun x hx => by rw [List.eq_of_mem_replicate hx]; exact allInt_zero

theorem listSum_allInt (l : List ℚ) (h : allInt l) : (listSum l).den = 1 := by
  induction l with
  | nil => exact allInt_zero
  | cons x l ih =>
    rw [listSum_cons]
    exact allInt_add _ _ (h x (List.mem_cons_self _ _))
      (ih fun z hz => h z (List.mem_cons_of_mem x hz))

theorem length_zipAdd (a b : List ℚ) (h : a.length = b.length) :
    (List.zipWith (· + ·) a b).length = a.length := by
  rw [List.length_zipWith, h, Nat.min_self]

theorem prods_pad (k : ℕ) :
    prods (List.replicate k ((0 : ℚ), (0 : ℚ))) = List.replicate k 0 := by
  induction k with
  | zero => rfl
  | succ k ih =>
    rw [List.replicate_succ, List.replicate_succ, prods, List.map_cons]
    rw [prods] at ih
    rw [ih, qmul_eq, mul_zero]

theorem AccInv_init (L : ℕ) : AccInv L (Acc.init L) := by
  unfold AccInv Acc.init
  refine ⟨?_, ?_, ?_, ?_, ?_, ?_, ?_, ?_, rfl, rfl, rfl, rfl⟩
  · exact List.length_replicate _ _
  · exact List.length_replicate _ _
  · exact List.length_replicate _ _
  · exact List.length_replicate _ _
  · exact allInt_replicate_zero L
  · exact allInt_replicate_zero L
  · exact allInt_replicate_zero L
  · exact allInt_replicate_zero L

theorem laneSum_init (L : ℕ) : laneSum (Acc.init L) = 0 := by
  simp [laneSum, Acc.init, listSum_replicate_zero]

theorem laneAbs_init (L : ℕ) : laneAbs (Acc.init L) = 0 := by
  simp [laneAbs, Acc.init, absSum_replicate_zero]

/-- One accumulator group of the compensated kernel on exact integer data:
the partial sum receives the exact products and the compensation register
stays zero. -/
theorem groupCC (L : ℕ) (g : List (ℚ × ℚ)) (s c : Vec)
    (hg : g.length = L) (hs : s.length = L) (hc : c = List.replicate L 0)
    (hpi : allInt (prods g)) (hsi : allInt s)
    (hb : absSum (prods g) + absSum s ≤ (2 : ℚ) ^ (24 : ℕ)) :
    (TwoSums round32 (TwoProducts round32 (wOf g) (vOf g)).1 s).1 =
      List.zipWith (· + ·) (prods g) s ∧
    vAdd round32 c (vAdd round32 (TwoProducts round32 (wOf g) (vOf g)).2
      (TwoSums round32 (TwoProducts round32 (wOf g) (vOf g)).1 s).2) =
      List.replicate L 0 := by
  have hmul := zipWith_mul_wv g
  have htp := TwoProducts_exact round32 round32_exact24 (wOf g) (vOf g)
    (by rw [wOf_length, vOf_length])
    (by rw [hmul]; exact hpi)
    (by rw [hmul]; linarith [absSum_nonneg s])
  have hts := TwoSums_exact round32 round32_exact24 (prods g) s
    (by rw [prods_length, hg, hs]) hpi hsi hb
  rw [htp, hmul, hts, hc, wOf_length, hg, prods_length, hg]
  exact ⟨rfl, by rw [vAdd_zeros round32 round32_exact24,
    vAdd_zeros round32 round32_exact24]⟩

/-- One accumulator group of the double kernel on exact integer data. -/
theorem groupDD (L : ℕ) (g : List (ℚ × ℚ)) (s : Vec)
    (hg : g.length = L) (hs : s.length = L)
    (hpi : allInt (prods g)) (hsi : allInt s)
    (hb : absSum (prods g) + absSum s ≤ (2 : ℚ) ^ (24 : ℕ)) :
    vMulAdd round64 (wOf g) (vOf g) s = List.zipWith (· + ·) (prods g) s := by
  have hmul := zipWith_mul_wv g
  have h := vMulAdd_exact round64 round64_exact24 (wOf g) (vOf g) s
    (by rw [wOf_length, vOf_length])
    (by rw [vOf_length, hg, hs])
    (by rw [hmul]; exact hpi)
    hsi
    (by rw [hmul]; exact hb)
  rw [h, hmul]

/-- The facts carried along for a freshly updated partial sum. -/
theorem zipAdd_facts (L : ℕ) (pg s : List ℚ) (hg : pg.length = L)
    (hs : s.length = L) (hpg : allInt pg) (hsi : allInt s) :
    (List.zipWith (· + ·) pg s).length = L ∧
    allInt (List.zipWith (· + ·) pg s) ∧
    absSum (List.zipWith (· + ·) pg s) ≤ absSum pg + absSum s ∧
    listSum (List.zipWith (· + ·) pg s) = listSum pg + listSum s := by
  have hlen : pg.length = s.length := by omega
  exact ⟨by rw [length_zipAdd pg s hlen, hg], zipAdd_allInt pg s hpg hsi,
    absSum_zipAdd_le pg s hlen, listSum_zipAdd pg s hlen⟩

end GemmaDot

namespace GemmaDot

/-! ### Block decomposition of the driver's main loop -/

theorem take4_decomp (L : ℕ) (l : List (ℚ × ℚ)) :
    l.take (4 * L) = grp l 0 L ++ (grp l 1 L ++ (grp l 2 L ++ grp l 3 L)) := by
  have h0 : grp l 0 L = l.take L := by
    rw [grp, Nat.zero_mul, List.drop_zero]
  have h1 : grp l 1 L = (l.drop L).take L := by
    rw [grp, Nat.one_mul]
  have h2 : grp l 2 L = ((l.drop L).drop L).take L := by
    rw [grp, List.drop_drop, show L + L = 2 * L by ring]
  have h3 : grp l 3 L = (((l.drop L).drop L).drop L).take L := by
    rw [grp]
    simp only [List.drop_drop]
    rw [show L + L + L = 3 * L by ring]
  rw [h0, h1, h2, h3, show 4 * L = L + (L + (L + L)) by ring,
    List.take_add, List.take_add, List.take_add]

theorem grp_len (l : List (ℚ × ℚ)) (i L : ℕ) (h : (i + 1) * L ≤ l.length) :
    (grp l i L).length = L := by
  have h2 : i * L + L ≤ l.length := by
    have h3 : (i + 1) * L = i * L + L := by ring
    omega
  rw [grp]
  exact List.length_take_of_le (by rw [List.length_drop]; omega)

theorem grp_subset (l : List (ℚ × ℚ)) (i L : ℕ) :
    ∀ p ∈ grp l i L, p ∈ l :=
  fun _ hp => List.mem_of_mem_drop (List.mem_of_mem_take hp)

theorem prods_mono (g l : List (ℚ × ℚ)) (h : ∀ p ∈ g, p ∈ l) :
    ∀ x ∈ prods g, x ∈ prods l := by
  intro x hx
  rw [prods, List.mem_map] at hx ⊢
  obtain ⟨p, hp, rfl⟩ := hx
  exact ⟨p, h p hp, rfl⟩

theorem CCupd4_s0 (w0 w1 w2 w3 v0 v1 v2 v3 : Vec) (a : Acc) :
    (DotKernelCompensated.Update4 w0 w1 w2 w3 v0 v1 v2 v3 a).s0 =
      (TwoSums round32 (TwoProducts round32 w0 v0).1 a.s0).1 := rfl

theorem CCupd4_s1 (w0 w1 w2 w3 v0 v1 v2 v3 : Vec) (a : Acc) :
    (DotKernelCompensated.Update4 w0 w1 w2 w3 v0 v1 v2 v3 a).s1 =
      (TwoSums round32 (TwoProducts round32 w1 v1).1 a.s1).1 := rfl

theorem CCupd4_s2 (w0 w1 w2 w3 v0 v1 v2 v3 : Vec) (a : Acc) :
    (DotKernelCompensated.Update4 w0 w1 w2 w3 v0 v1 v2 v3 a).s2 =
      (TwoSums round32 (TwoProducts round32 w2 v2).1 a.s2).1 := rfl

theorem CCupd4_s3 (w0 w1 w2 w3 v0 v1 v2 v3 : Vec) (a : Acc) :
    (DotKernelCompensated.Update4 w0 w1 w2 w3 v0 v1 v2 v3 a).s3 =
      (TwoSums round32 (TwoProducts round32 w3 v3).1 a.s3).1 := rfl

theorem CCupd4_c0 (w0 w1 w2 w3 v0 v1 v2 v3 : Vec) (a : Acc) :
    (DotKernelCompensated.Update4 w0 w1 w2 w3 v0 v1 v2 v3 a).c0 =
      vAdd round32 a.c0 (vAdd round32 (TwoProducts round32 w0 v0).2
        (TwoSums round32 (TwoProducts round32 w0 v0).1 a.s0).2) := rfl

theorem CCupd4_c1 (w0 w1 w2 w3 v0 v1 v2 v3 : Vec) (a : Acc) :
    (DotKernelCompensated.Update4 w0 w1 w2 w3 v0 v1 v2 v3 a).c1 =
      vAdd round32 a.c1 (vAdd round32 (TwoProducts round32 w1 v1).2
        (TwoSums round32 (TwoProducts round32 w1 v1).1 a.s1).2) := rfl

theorem CCupd4_c2 (w0 w1 w2 w3 v0 v1 v2 v3 : Vec) (a : Acc) :
    (DotKernelCompensated.Update4 w0 w1 w2 w3 v0 v1 v2 v3 a).c2 =
      vAdd round32 a.c2 (vAdd round32 (TwoProducts round32 w2 v2).2
        (TwoSums round32 (TwoProducts round32 w2 v2).1 a.s2).2) := rfl

theorem CCupd4_c3 (w0 w1 w2 w3 v0 v1 v2 v3 : Vec) (a : Acc) :
    (DotKernelCompensated.Update4 w0 w1 w2 w3 v0 v1 v2 v3 a).c3 =
      vAdd round32 a.c3 (vAdd round32 (TwoProducts round32 w3 v3).2
        (TwoSums round32 (TwoProducts round32 w3 v3).1 a.s3).2) := rfl

/-- One four-wide step of the compensated kernel on exact integer data. -/
theorem step4CC (L : ℕ) (l : List (ℚ × ℚ)) (a : Acc)
    (h4 : 4 * L ≤ l.length) (inv : AccInv L a) (hpi : allInt (prods l))
    (hb : laneAbs a + absSum (prods l) ≤ (2 : ℚ) ^ (24 : ℕ)) :
    AccInv L (DotKernelCompensated.Update4 (wOf (grp l 0 L)) (wOf (grp l 1 L))
      (wOf (grp l 2 L)) (wOf (grp l 3 L)) (vOf (grp l 0 L)) (vOf (grp l 1 L))
      (vOf (grp l 2 L)) (vOf (grp l 3 L)) a) ∧
    laneAbs (DotKernelCompensated.Update4 (wOf (grp l 0 L)) (wOf (grp l 1 L))
      (wOf (grp l 2 L)) (wOf (grp l 3 L)) (vOf (grp l 0 L)) (vOf (grp l 1 L))
      (vOf (grp l 2 L)) (vOf (grp l 3 L)) a) ≤
      laneAbs a + absSum (prods (l.take (4 * L))) ∧
    laneSum (DotKernelCompensated.Update4 (wOf (grp l 0 L)) (wOf (grp l 1 L))
      (wOf (grp l 2 L)) (wOf (grp l 3 L)) (vOf (grp l 0 L)) (vOf (grp l 1 L))
      (vOf (grp l 2 L)) (vOf (grp l 3 L)) a) =
      laneSum a + listSum (prods (l.take (4 * L))) := by
  obtain ⟨hl0, hl1, hl2, hl3, hi0, hi1, hi2, hi3, hc0, hc1, hc2, hc3⟩ := inv
  have hg0 := grp_len l 0 L (by omega)
  have hg1 := grp_len l 1 L (by omega)
  have hg2 := grp_len l 2 L (by omega)
  have hg3 := grp_len l 3 L (by omega)
  have hp0 : allInt (prods (grp l 0 L)) :=
    allInt_mono _ _ (prods_mono _ _ (grp_subset l 0 L)) hpi
  have hp1 : allInt (prods (grp l 1 L)) :=
    allInt_mono _ _ (prods_mono _ _ (grp_subset l 1 L)) hpi
  have hp2 : allInt (prods (grp l 2 L)) :=
    allInt_mono _ _ (prods_mono _ _ (grp_subset l 2 L)) hpi
  have hp3 : allInt (prods (grp l 3 L)) :=
    allInt_mono _ _ (prods_mono _ _ (grp_subset l 3 L)) hpi
  have hdecA : absSum (prods (l.take (4 * L))) =
      absSum (prods (grp l 0 L)) + (absSum (prods (grp l 1 L)) +
        (absSum (prods (grp l 2 L)) + absSum (prods (grp l 3 L)))) := by
    rw [take4_decomp, prods_append, prods_append, prods_append, absSum_append,
      absSum_append, absSum_append]
  have hdecS : listSum (prods (l.take (4 * L))) =
      listSum (prods (grp l 0 L)) + (listSum (prods (grp l 1 L)) +
        (listSum (prods (grp l 2 L)) + listSum (prods (grp l 3 L)))) := by
    rw [take4_decomp, prods_append, prods_append, prods_append, listSum_append,
      listSum_append, listSum_append]
  have hsplit : absSum (prods (l.take (4 * L))) + absSum (prods (l.drop (4 * L))) =
      absSum (prods l) := by
    rw [← absSum_append, ← prods_append, List.take_append_drop]
  have hnn0 := absSum_nonneg (prods (grp l 0 L))
  have hnn1 := absSum_nonneg (prods (grp l 1 L))
  have hnn2 := absSum_nonneg (prods (grp l 2 L))
  have hnn3 := absSum_nonneg (prods (grp l 3 L))
  have hnnd := absSum_nonneg (prods (l.drop (4 * L)))
  have hs0 := absSum_nonneg a.s0
  have hs1 := absSum_nonneg a.s1
  have hs2 := absSum_nonneg a.s2
  have hs3 := absSum_nonneg a.s3
  rw [laneAbs] at hb
  have hG0 := groupCC L (grp l 0 L) a.s0 a.c0 hg0 hl0 hc0 hp0 hi0
    (by linarith [hdecA, hsplit])
  have hG1 := groupCC L (grp l 1 L) a.s1 a.c1 hg1 hl1 hc1 hp1 hi1
    (by linarith [hdecA, hsplit])
  have hG2 := groupCC L (grp l 2 L) a.s2 a.c2 hg2 hl2 hc2 hp2 hi2
    (by linarith [hdecA, hsplit])
  have hG3 := groupCC L (grp l 3 L) a.s3 a.c3 hg3 hl3 hc3 hp3 hi3
    (by linarith [hdecA, hsplit])
  have hF0 := zipAdd_facts L (prods (grp l 0 L)) a.s0 (by rw [prods_length, hg0]) hl0 hp0 hi0
  have hF1 := zipAdd_facts L (prods (grp l 1 L)) a.s1 (by rw [prods_length, hg1]) hl1 hp1 hi1
  have hF2 := zipAdd_facts L (prods (grp l 2 L)) a.s2 (by rw [prods_length, hg2]) hl2 hp2 hi2
  have hF3 := zipAdd_facts L (prods (grp l 3 L)) a.s3 (by rw [prods_length, hg3]) hl3 hp3 hi3
  refine ⟨⟨?_, ?_, ?_, ?_, ?_, ?_, ?_, ?_, ?_, ?_, ?_, ?_⟩, ?_, ?_⟩
  · rw [CCupd4_s0, hG0.1]
    exact hF0.1
  · rw [CCupd4_s1, hG1.1]
    exact hF1.1
  · rw [CCupd4_s2, hG2.1]
    exact hF2.1
  · rw [CCupd4_s3, hG3.1]
    exact hF3.1
  · rw [CCupd4_s0, hG0.1]
    exact hF0.2.1
  · rw [CCupd4_s1, hG1.1]
    exact hF1.2.1
  · rw [CCupd4_s2, hG2.1]
    exact hF2.2.1
  · rw [CCupd4_s3, hG3.1]
    exact hF3.2.1
  · rw [CCupd4_c0]
    exact hG0.2
  · rw [CCupd4_c1]
    exact hG1.2
  · rw [CCupd4_c2]
    exact hG2.2
  · rw [CCupd4_c3]
    exact hG3.2
  · rw [laneAbs, CCupd4_s0, CCupd4_s1, CCupd4_s2, CCupd4_s3, hG0.1, hG1.1, hG2.1,
      hG3.1]
    have h0 := hF0.2.2.1
    have h1 := hF1.2.2.1
    have h2 := hF2.2.2.1
    have h3 := hF3.2.2.1
    rw [laneAbs]
    linarith [hdecA]
  · rw [laneSum, CCupd4_s0, CCupd4_s1, CCupd4_s2, CCupd4_s3, hG0.1, hG1.1, hG2.1,
      hG3.1, hF0.2.2.2, hF1.2.2.2, hF2.2.2.2, hF3.2.2.2, hdecS, laneSum]
    ring

end GemmaDot

namespace GemmaDot

/-! ### Main loop and remainder of the compensated kernel, exactly -/

theorem mainLoopCC (L : ℕ) :
    ∀ (fuel : ℕ) (l : List (ℚ × ℚ)) (a : Acc), l.length ≤ fuel →
    AccInv L a → allInt (prods l) →
    laneAbs a + absSum (prods l) ≤ (2 : ℚ) ^ (24 : ℕ) →
    AccInv L (mainLoop DotKernelCompensated.Update4 L fuel l a).1 ∧
    allInt (prods (mainLoop DotKernelCompensated.Update4 L fuel l a).2) ∧
    laneAbs (mainLoop DotKernelCompensated.Update4 L fuel l a).1 +
      absSum (prods (mainLoop DotKernelCompensated.Update4 L fuel l a).2) ≤
      laneAbs a + absSum (prods l) ∧
    laneSum (mainLoop DotKernelCompensated.Update4 L fuel l a).1 +
      listSum (prods (mainLoop DotKernelCompensated.Update4 L fuel l a).2) =
      laneSum a + listSum (prods l) ∧
    (mainLoop DotKernelCompensated.Update4 L fuel l a).2.length ≤ l.length := by
  intro fuel
  induction fuel with
  | zero =>
    intro l a _ inv hpi hb
    rw [mainLoop]
    exact ⟨inv, hpi, le_refl _, rfl, le_refl _⟩
  | succ fuel ih =>
    intro l a hfuel inv hpi hb
    rw [mainLoop]
    by_cases hcond : 0 < L ∧ 4 * L ≤ l.length
    · rw [if_pos hcond]
      obtain ⟨hstep1, hstep2, hstep3⟩ := step4CC L l a hcond.2 inv hpi hb
      have hsplitA : absSum (prods (l.take (4 * L))) +
          absSum (prods (l.drop (4 * L))) = absSum (prods l) := by
        rw [← absSum_append, ← prods_append, List.take_append_drop]
      have hsplitS : listSum (prods (l.take (4 * L))) +
          listSum (prods (l.drop (4 * L))) = listSum (prods l) := by
        rw [← listSum_append, ← prods_append, List.take_append_drop]
      have hdrop : allInt (prods (l.drop (4 * L))) :=
        allInt_mono _ _ (prods_mono _ _ (fun p hp => List.mem_of_mem_drop hp)) hpi
      have hflen : (l.drop (4 * L)).length ≤ fuel := by
        rw [List.length_drop]
        omega
      have hbud : laneAbs (DotKernelCompensated.Update4 (wOf (grp l 0 L))
          (wOf (grp l 1 L)) (wOf (grp l 2 L)) (wOf (grp l 3 L)) (vOf (grp l 0 L))
          (vOf (grp l 1 L)) (vOf (grp l 2 L)) (vOf (grp l 3 L)) a) +
          absSum (prods (l.drop (4 * L))) ≤ (2 : ℚ) ^ (24 : ℕ) := by
        linarith [hsplitA]
      obtain ⟨r1, r2, r3, r4, r5⟩ := ih (l.drop (4 * L)) _ hflen hstep1 hdrop hbud
      refine ⟨r1, r2, ?_, ?_, ?_⟩
      · linarith [hsplitA]
      · rw [r4, hstep3]
        linarith [hsplitS]
      · rw [List.length_drop] at r5
        omega
    · rw [if_neg hcond]
      exact ⟨inv, hpi, le_refl _, rfl, le_refl _⟩

/-- One single-wide (possibly padded) step of the compensated kernel. -/
theorem step1CC (L : ℕ) (ch : List (ℚ × ℚ)) (a : Acc)
    (hch : ch.length = L) (inv : AccInv L a) (hpi : allInt (prods ch))
    (hb : laneAbs a + absSum (prods ch) ≤ (2 : ℚ) ^ (24 : ℕ)) :
    AccInv L (DotKernelCompensated.Update1 (wOf ch) (vOf ch) a) ∧
    laneAbs (DotKernelCompensated.Update1 (wOf ch) (vOf ch) a) ≤
      laneAbs a + absSum (prods ch) ∧
    laneSum (DotKernelCompensated.Update1 (wOf ch) (vOf ch) a) =
      laneSum a + listSum (prods ch) := by
  obtain ⟨hl0, hl1, hl2, hl3, hi0, hi1, hi2, hi3, hc0, hc1, hc2, hc3⟩ := inv
  have hs0 := absSum_nonneg a.s0
  have hs1 := absSum_nonneg a.s1
  have hs2 := absSum_nonneg a.s2
  have hs3 := absSum_nonneg a.s3
  rw [laneAbs] at hb
  have hG := groupCC L ch a.s0 a.c0 hch hl0 hc0 hpi hi0 (by linarith)
  have hF := zipAdd_facts L (prods ch) a.s0 (by rw [prods_length, hch]) hl0 hpi hi0
  have hup_s0 : (DotKernelCompensated.Update1 (wOf ch) (vOf ch) a).s0 =
      (TwoSums round32 (TwoProducts round32 (wOf ch) (vOf ch)).1 a.s0).1 := rfl
  have hup_c0 : (DotKernelCompensated.Update1 (wOf ch) (vOf ch) a).c0 =
      vAdd round32 a.c0 (vAdd round32 (TwoProducts round32 (wOf ch) (vOf ch)).2
        (TwoSums round32 (TwoProducts round32 (wOf ch) (vOf ch)).1 a.s0).2) := rfl
  have hup_s1 : (DotKernelCompensated.Update1 (wOf ch) (vOf ch) a).s1 = a.s1 := rfl
  have hup_s2 : (DotKernelCompensated.Update1 (wOf ch) (vOf ch) a).s2 = a.s2 := rfl
  have hup_s3 : (DotKernelCompensated.Update1 (wOf ch) (vOf ch) a).s3 = a.s3 := rfl
  have hup_c1 : (DotKernelCompensated.Update1 (wOf ch) (vOf ch) a).c1 = a.c1 := rfl
  have hup_c2 : (DotKernelCompensated.Update1 (wOf ch) (vOf ch) a).c2 = a.c2 := rfl
  have hup_c3 : (DotKernelCompensated.Update1 (wOf ch) (vOf ch) a).c3 = a.c3 := rfl
  refine ⟨⟨?_, ?_, ?_, ?_, ?_, ?_, ?_, ?_, ?_, ?_, ?_, ?_⟩, ?_, ?_⟩
  · rw [hup_s0, hG.1]
    exact hF.1
  · rw [hup_s1]
    exact hl1
  · rw [hup_s2]
    exact hl2
  · rw [hup_s3]
    exact hl3
  · rw [hup_s0, hG.1]
    exact hF.2.1
  · rw [hup_s1]
    exact hi1
  · rw [hup_s2]
    exact hi2
  · rw [hup_s3]
    exact hi3
  · rw [hup_c0]
    exact hG.2
  · rw [hup_c1]
    exact hc1
  · rw [hup_c2]
    exact hc2
  · rw [hup_c3]
    exact hc3
  · rw [laneAbs, hup_s0, hup_s1, hup_s2, hup_s3, hG.1, laneAbs]
    linarith [hF.2.2.1]
  · rw [laneSum, hup_s0, hup_s1, hup_s2, hup_s3, hG.1, hF.2.2.2, laneSum]
    ring

/-- The padded remainder chunks of the compensated kernel, exactly. -/
theorem foldChunksCC (L : ℕ) (hL : 0 < L) :
    ∀ (fuel : ℕ) (l : List (ℚ × ℚ)) (a : Acc), l.length ≤ fuel →
    AccInv L a → allInt (prods l) →
    laneAbs a + absSum (prods l) ≤ (2 : ℚ) ^ (24 : ℕ) →
    AccInv L ((padChunks L fuel l).foldl
      (fun acc c => DotKernelCompensated.Update1 (wOf c) (vOf c) acc) a) ∧
    laneAbs ((padChunks L fuel l).foldl
      (fun acc c => DotKernelCompensated.Update1 (wOf c) (vOf c) acc) a) ≤
      laneAbs a + absSum (prods l) ∧
    laneSum ((padChunks L fuel l).foldl
      (fun acc c => DotKernelCompensated.Update1 (wOf c) (vOf c) acc) a) =
      laneSum a + listSum (prods l) := by
  intro fuel
  induction fuel with
  | zero =>
    intro l a hfuel inv hpi hb
    have hl : l = [] := List.length_eq_zero.mp (by omega)
    subst hl
    rw [padChunks, prods, List.map_nil, absSum_nil, listSum_nil, List.foldl_nil]
    exact ⟨inv, by linarith, by ring⟩
  | succ fuel ih =>
    intro l a hfuel inv hpi hb
    rw [padChunks]
    by_cases hemp : l.isEmpty
    · rw [if_pos hemp]
      have hl : l = [] := List.isEmpty_iff.mp hemp
      subst hl
      rw [prods, List.map_nil, absSum_nil, listSum_nil, List.foldl_nil]
      exact ⟨inv, by linarith, by ring⟩
    · rw [if_neg hemp]
      have hlen1 : 1 ≤ l.length := by
        rcases l with _ | ⟨p, l⟩
        · simp at hemp
        · simp
      have hchlen : (l.take L ++ List.replicate (L - l.length) ((0:ℚ), (0:ℚ))).length = L := by
        rw [List.length_append, List.length_replicate, List.length_take]
        omega
      have hchprods : prods (l.take L ++ List.replicate (L - l.length) ((0:ℚ), (0:ℚ))) =
          prods (l.take L) ++ List.replicate (L - l.length) 0 := by
        rw [prods_append, prods_pad]
      have hpt : allInt (prods (l.take L)) :=
        allInt_mono _ _ (prods_mono _ _ (fun p hp => List.mem_of_mem_take hp)) hpi
      have hchint : allInt (prods (l.take L ++ List.replicate (L - l.length) ((0:ℚ), (0:ℚ)))) := by
        rw [hchprods]
        exact allInt_append _ _ hpt (allInt_replicate_zero _)
      have hchabs : absSum (prods (l.take L ++ List.replicate (L - l.length) ((0:ℚ), (0:ℚ)))) =
          absSum (prods (l.take L)) := by
        rw [hchprods, absSum_append, absSum_replicate_zero, add_zero]
      have hchsum : listSum (prods (l.take L ++ List.replicate (L - l.length) ((0:ℚ), (0:ℚ)))) =
          listSum (prods (l.take L)) := by
        rw [hchprods, listSum_append, listSum_replicate_zero, add_zero]
      have hsplitA : absSum (prods (l.take L)) + absSum (prods (l.drop L)) =
          absSum (prods l) := by
        rw [← absSum_append, ← prods_append, List.take_append_drop]
      have hsplitS : listSum (prods (l.take L)) + listSum (prods (l.drop L)) =
          listSum (prods l) := by
        rw [← listSum_append, ← prods_append, List.take_append_drop]
      have hnnd := absSum_nonneg (prods (l.drop L))
      have hstep := step1CC L _ a hchlen inv hchint (by rw [hchabs]; linarith)
      have hdint : allInt (prods (l.drop L)) :=
        allInt_mono _ _ (prods_mono _ _ (fun p hp => List.mem_of_mem_drop hp)) hpi
      have hflen : (l.drop L).length ≤ fuel := by
        rw [List.length_drop]
        omega
      have hbud : laneAbs (DotKernelCompensated.Update1
          (wOf (l.take L ++ List.replicate (L - l.length) ((0:ℚ), (0:ℚ))))
          (vOf (l.take L ++ List.replicate (L - l.length) ((0:ℚ), (0:ℚ)))) a) +
          absSum (prods (l.drop L)) ≤ (2 : ℚ) ^ (24 : ℕ) := by
        have h1 := hstep.2.1
        rw [hchabs] at h1
        linarith
      obtain ⟨r1, r2, r3⟩ := ih (l.drop L) _ hflen hstep.1 hdint hbud
      rw [List.foldl_cons]
      refine ⟨r1, ?_, ?_⟩
      · have h1 := hstep.2.1
        rw [hchabs] at h1
        linarith
      · rw [r3, hstep.2.2, hchsum]
        linarith [hsplitS]

end GemmaDot

namespace GemmaDot

/-! ### Exact reduction and the full compensated run -/

theorem reduceCC (L : ℕ) (a : Acc) (inv : AccInv L a)
    (hb : laneAbs a ≤ (2 : ℚ) ^ (24 : ℕ)) :
    DotKernelCompensated.Reduce a = laneSum a := by
  obtain ⟨hl0, hl1, hl2, hl3, hi0, hi1, hi2, hi3, hc0, hc1, hc2, hc3⟩ := inv
  rw [laneAbs] at hb
  have hs0 := absSum_nonneg a.s0
  have hs1 := absSum_nonneg a.s1
  have hs2 := absSum_nonneg a.s2
  have hs3 := absSum_nonneg a.s3
  have h01 := TwoSums_exact round32 round32_exact24 a.s0 a.s1 (by omega) hi0 hi1
    (by linarith)
  have h23 := TwoSums_exact round32 round32_exact24 a.s2 a.s3 (by omega) hi2 hi3
    (by linarith)
  have hF01 := zipAdd_facts L a.s0 a.s1 hl0 hl1 hi0 hi1
  have hF23 := zipAdd_facts L a.s2 a.s3 hl2 hl3 hi2 hi3
  have hfin := TwoSums_exact round32 round32_exact24
    (List.zipWith (· + ·) a.s0 a.s1) (List.zipWith (· + ·) a.s2 a.s3)
    (by rw [hF01.1, hF23.1]) hF01.2.1 hF23.2.1
    (by linarith [hF01.2.2.1, hF23.2.2.1])
  have hFf := zipAdd_facts L (List.zipWith (· + ·) a.s0 a.s1)
    (List.zipWith (· + ·) a.s2 a.s3) hF01.1 hF23.1 hF01.2.1 hF23.2.1
  have hA01 : AssimilateCascadedSums a.s1 a.c1 a.s0 a.c0 =
      (List.zipWith (· + ·) a.s0 a.s1, List.replicate L 0) := by
    rw [AssimilateCascadedSums, h01, hc0, hc1, hl0]
    dsimp only
    rw [vAdd_zeros round32 round32_exact24, vAdd_zeros round32 round32_exact24]
  have hA23 : AssimilateCascadedSums a.s3 a.c3 a.s2 a.c2 =
      (List.zipWith (· + ·) a.s2 a.s3, List.replicate L 0) := by
    rw [AssimilateCascadedSums, h23, hc2, hc3, hl2]
    dsimp only
    rw [vAdd_zeros round32 round32_exact24, vAdd_zeros round32 round32_exact24]
  have hAf : AssimilateCascadedSums (List.zipWith (· + ·) a.s2 a.s3)
      (List.replicate L 0) (List.zipWith (· + ·) a.s0 a.s1) (List.replicate L 0) =
      (List.zipWith (· + ·) (List.zipWith (· + ·) a.s0 a.s1)
        (List.zipWith (· + ·) a.s2 a.s3), List.replicate L 0) := by
    rw [AssimilateCascadedSums, hfin, hF01.1]
    dsimp only
    rw [vAdd_zeros round32 round32_exact24, vAdd_zeros round32 round32_exact24]
  rw [DotKernelCompensated.Reduce, hA01, hA23]
  dsimp only
  rw [hAf]
  dsimp only
  rw [ReduceCascadedSums, ReduceSum_zeros round32 round32_exact24]
  rw [ReduceSum_exact round32 round32_exact24 _ hFf.2.1
    (by linarith [hFf.2.2.1, hF01.2.2.1, hF23.2.2.1])]
  rw [qadd_eq, add_zero]
  rw [hFf.2.2.2, hF01.2.2.2, hF23.2.2.2]
  rw [round32, roundP_exact 24 le_rfl _
    (allInt_add _ _ (allInt_add _ _ (listSum_allInt _ hi0) (listSum_allInt _ hi1))
      (allInt_add _ _ (listSum_allInt _ hi2) (listSum_allInt _ hi3))) ?_, laneSum]
  · ring
  · have t0 := abs_listSum_le a.s0
    have t1 := abs_listSum_le a.s1
    have t2 := abs_listSum_le a.s2
    have t3 := abs_listSum_le a.s3
    calc |listSum a.s0 + listSum a.s1 + (listSum a.s2 + listSum a.s3)|
        ≤ |listSum a.s0 + listSum a.s1| + |listSum a.s2 + listSum a.s3| := abs_add _ _
    _ ≤ (|listSum a.s0| + |listSum a.s1|) + (|listSum a.s2| + |listSum a.s3|) := by
        have u1 := abs_add (listSum a.s0) (listSum a.s1)
        have u2 := abs_add (listSum a.s2) (listSum a.s3)
        linarith
    _ ≤ (2 : ℚ) ^ (24 : ℕ) := by linarith

/-- The compensated kernel run on an exact bounded integer dot product is
exact. -/
theorem runCC_exact (N : ℕ) (hN : 0 < N) (w v : List ℚ)
    (hpi : allInt (prods (List.zip w v)))
    (hb : absSum (prods (List.zip w v)) ≤ (2 : ℚ) ^ (24 : ℕ)) :
    runDotCompensatedF32 N w v = listSum (prods (List.zip w v)) := by
  rw [runDotCompensatedF32, DecompressAndCall]
  have hML := mainLoopCC N (List.zip w v).length (List.zip w v) (Acc.init N)
    le_rfl (AccInv_init N) hpi (by rw [laneAbs_init]; linarith)
  obtain ⟨m1, m2, m3, m4, m5⟩ := hML
  rw [laneAbs_init] at m3
  rw [laneSum_init] at m4
  have hFC := foldChunksCC N hN
    (mainLoop DotKernelCompensated.Update4 N (List.zip w v).length (List.zip w v)
      (Acc.init N)).2.length
    (mainLoop DotKernelCompensated.Update4 N (List.zip w v).length (List.zip w v)
      (Acc.init N)).2
    (mainLoop DotKernelCompensated.Update4 N (List.zip w v).length (List.zip w v)
      (Acc.init N)).1
    le_rfl m1 m2 (by linarith)
  obtain ⟨f1, f2, f3⟩ := hFC
  rw [reduceCC N _ f1 (by linarith), f3, m4]
  linarith [absSum_nonneg (prods (List.zip w v))]

end GemmaDot

namespace GemmaDot

/-! ### The same development for the double kernel -/

theorem DDupd4_s0 (w0 w1 w2 w3 v0 v1 v2 v3 : Vec) (a : Acc) :
    (DotKernelDouble.Update4 w0 w1 w2 w3 v0 v1 v2 v3 a).s0 =
      vMulAdd round64 w0 v0 a.s0 := rfl

theorem DDupd4_s1 (w0 w1 w2 w3 v0 v1 v2 v3 : Vec) (a : Acc) :
    (DotKernelDouble.Update4 w0 w1 w2 w3 v0 v1 v2 v3 a).s1 =
      vMulAdd round64 w1 v1 a.s1 := rfl

theorem DDupd4_s2 (w0 w1 w2 w3 v0 v1 v2 v3 : Vec) (a : Acc) :
    (DotKernelDouble.Update4 w0 w1 w2 w3 v0 v1 v2 v3 a).s2 =
      vMulAdd round64 w2 v2 a.s2 := rfl

theorem DDupd4_s3 (w0 w1 w2 w3 v0 v1 v2 v3 : Vec) (a : Acc) :
    (DotKernelDouble.Update4 w0 w1 w2 w3 v0 v1 v2 v3 a).s3 =
      vMulAdd round64 w3 v3 a.s3 := rfl

/-- One four-wide step of the double kernel on exact integer data. -/
theorem step4DD (L : ℕ) (l : List (ℚ × ℚ)) (a : Acc)
    (h4 : 4 * L ≤ l.length) (inv : AccInv L a) (hpi : allInt (prods l))
    (hb : laneAbs a + absSum (prods l) ≤ (2 : ℚ) ^ (24 : ℕ)) :
    AccInv L (DotKernelDouble.Update4 (wOf (grp l 0 L)) (wOf (grp l 1 L))
      (wOf (grp l 2 L)) (wOf (grp l 3 L)) (vOf (grp l 0 L)) (vOf (grp l 1 L))
      (vOf (grp l 2 L)) (vOf (grp l 3 L)) a) ∧
    laneAbs (DotKernelDouble.Update4 (wOf (grp l 0 L)) (wOf (grp l 1 L))
      (wOf (grp l 2 L)) (wOf (grp l 3 L)) (vOf (grp l 0 L)) (vOf (grp l 1 L))
      (vOf (grp l 2 L)) (vOf (grp l 3 L)) a) ≤
      laneAbs a + absSum (prods (l.take (4 * L))) ∧
    laneSum (DotKernelDouble.Update4 (wOf (grp l 0 L)) (wOf (grp l 1 L))
      (wOf (grp l 2 L)) (wOf (grp l 3 L)) (vOf (grp l 0 L)) (vOf (grp l 1 L))
      (vOf (grp l 2 L)) (vOf (grp l 3 L)) a) =
      laneSum a + listSum (prods (l.take (4 * L))) := by
  obtain ⟨hl0, hl1, hl2, hl3, hi0, hi1, hi2, hi3, hc0, hc1, hc2, hc3⟩ := inv
  have hg0 := grp_len l 0 L (by omega)
  have hg1 := grp_len l 1 L (by omega)
  have hg2 := grp_len l 2 L (by omega)
  have hg3 := grp_len l 3 L (by omega)
  have hp0 : allInt (prods (grp l 0 L)) :=
    allInt_mono _ _ (prods_mono _ _ (grp_subset l 0 L)) hpi
  have hp1 : allInt (prods (grp l 1 L)) :=
    allInt_mono _ _ (prods_mono _ _ (grp_subset l 1 L)) hpi
  have hp2 : allInt (prods (grp l 2 L)) :=
    allInt_mono _ _ (prods_mono _ _ (grp_subset l 2 L)) hpi
  have hp3 : allInt (prods (grp l 3 L)) :=
    allInt_mono _ _ (prods_mono _ _ (grp_subset l 3 L)) hpi
  have hdecA : absSum (prods (l.take (4 * L))) =
      absSum (prods (grp l 0 L)) + (absSum (prods (grp l 1 L)) +
        (absSum (prods (grp l 2 L)) + absSum (prods (grp l 3 L)))) := by
    rw [take4_decomp, prods_append, prods_append, prods_append, absSum_append,
      absSum_append, absSum_append]
  have hdecS : listSum (prods (l.take (4 * L))) =
      listSum (prods (grp l 0 L)) + (listSum (prods (grp l 1 L)) +
        (listSum (prods (grp l 2 L)) + listSum (prods (grp l 3 L)))) := by
    rw [take4_decomp, prods_append, prods_append, prods_append, listSum_append,
      listSum_append, listSum_append]
  have hsplit : absSum (prods (l.take (4 * L))) + absSum (prods (l.drop (4 * L))) =
      absSum (prods l) := by
    rw [← absSum_append, ← prods_append, List.take_append_drop]
  have hnn0 := absSum_nonneg (prods (grp l 0 L))
  have hnn1 := absSum_nonneg (prods (grp l 1 L))
  have hnn2 := absSum_nonneg (prods (grp l 2 L))
  have hnn3 := absSum_nonneg (prods (grp l 3 L))
  have hnnd := absSum_nonneg (prods (l.drop (4 * L)))
  have hs0 := absSum_nonneg a.s0
  have hs1 := absSum_nonneg a.s1
  have hs2 := absSum_nonneg a.s2
  have hs3 := absSum_nonneg a.s3
  rw [laneAbs] at hb
  have hG0 := groupDD L (grp l 0 L) a.s0 hg0 hl0 hp0 hi0 (by linarith [hdecA, hsplit])
  have hG1 := groupDD L (grp l 1 L) a.s1 hg1 hl1 hp1 hi1 (by linarith [hdecA, hsplit])
  have hG2 := groupDD L (grp l 2 L) a.s2 hg2 hl2 hp2 hi2 (by linarith [hdecA, hsplit])
  have hG3 := groupDD L (grp l 3 L) a.s3 hg3 hl3 hp3 hi3 (by linarith [hdecA, hsplit])
  have hF0 := zipAdd_facts L (prods (grp l 0 L)) a.s0 (by rw [prods_length, hg0]) hl0 hp0 hi0
  have hF1 := zipAdd_facts L (prods (grp l 1 L)) a.s1 (by rw [prods_length, hg1]) hl1 hp1 hi1
  have hF2 := zipAdd_facts L (prods (grp l 2 L)) a.s2 (by rw [prods_length, hg2]) hl2 hp2 hi2
  have hF3 := zipAdd_facts L (prods (grp l 3 L)) a.s3 (by rw [prods_length, hg3]) hl3 hp3 hi3
  refine ⟨⟨?_, ?_, ?_, ?_, ?_, ?_, ?_, ?_, ?_, ?_, ?_, ?_⟩, ?_, ?_⟩
  · rw [DDupd4_s0, hG0]
    exact hF0.1
  · rw [DDupd4_s1, hG1]
    exact hF1.1
  · rw [DDupd4_s2, hG2]
    exact hF2.1
  · rw [DDupd4_s3, hG3]
    exact hF3.1
  · rw [DDupd4_s0, hG0]
    exact hF0.2.1
  · rw [DDupd4_s1, hG1]
    exact hF1.2.1
  · rw [DDupd4_s2, hG2]
    exact hF2.2.1
  · rw [DDupd4_s3, hG3]
    exact hF3.2.1
  · exact hc0
  · exact hc1
  · exact hc2
  · exact hc3
  · rw [laneAbs, DDupd4_s0, DDupd4_s1, DDupd4_s2, DDupd4_s3, hG0, hG1, hG2, hG3]
    have h0 := hF0.2.2.1
    have h1 := hF1.2.2.1
    have h2 := hF2.2.2.1
    have h3 := hF3.2.2.1
    rw [laneAbs]
    linarith [hdecA]
  · rw [laneSum, DDupd4_s0, DDupd4_s1, DDupd4_s2, DDupd4_s3, hG0, hG1, hG2, hG3,
      hF0.2.2.2, hF1.2.2.2, hF2.2.2.2, hF3.2.2.2, hdecS, laneSum]
    ring

theorem mainLoopDD (L : ℕ) :
    ∀ (fuel : ℕ) (l : List (ℚ × ℚ)) (a : Acc), l.length ≤ fuel →
    AccInv L a → allInt (prods l) →
    laneAbs a + absSum (prods l) ≤ (2 : ℚ) ^ (24 : ℕ) →
    AccInv L (mainLoop DotKernelDouble.Update4 L fuel l a).1 ∧
    allInt (prods (mainLoop DotKernelDouble.Update4 L fuel l a).2) ∧
    laneAbs (mainLoop DotKernelDouble.Update4 L fuel l a).1 +
      absSum (prods (mainLoop DotKernelDouble.Update4 L fuel l a).2) ≤
      laneAbs a + absSum (prods l) ∧
    laneSum (mainLoop DotKernelDouble.Update4 L fuel l a).1 +
      listSum (prods (mainLoop DotKernelDouble.Update4 L fuel l a).2) =
      laneSum a + listSum (prods l) ∧
    (mainLoop DotKernelDouble.Update4 L fuel l a).2.length ≤ l.length := by
  intro fuel
  induction fuel with
  | zero =>
    intro l a _ inv hpi hb
    rw [mainLoop]
    exact ⟨inv, hpi, le_refl _, rfl, le_refl _⟩
  | succ fuel ih =>
    intro l a hfuel inv hpi hb
    rw [mainLoop]
    by_cases hcond : 0 < L ∧ 4 * L ≤ l.length
    · rw [if_pos hcond]
      obtain ⟨hstep1, hstep2, hstep3⟩ := step4DD L l a hcond.2 inv hpi hb
      have hsplitA : absSum (prods (l.take (4 * L))) +
          absSum (prods (l.drop (4 * L))) = absSum (prods l) := by
        rw [← absSum_append, ← prods_append, List.take_append_drop]
      have hsplitS : listSum (prods (l.take (4 * L))) +
          listSum (prods (l.drop (4 * L))) = listSum (prods l) := by
        rw [← listSum_append, ← prods_append, List.take_append_drop]
      have hdrop : allInt (prods (l.drop (4 * L))) :=
        allInt_mono _ _ (prods_mono _ _ (fun p hp => List.mem_of_mem_drop hp)) hpi
      have hflen : (l.drop (4 * L)).length ≤ fuel := by
        rw [List.length_drop]
        omega
      have hbud : laneAbs (DotKernelDouble.Update4 (wOf (grp l 0 L))
          (wOf (grp l 1 L)) (wOf (grp l 2 L)) (wOf (grp l 3 L)) (vOf (grp l 0 L))
          (vOf (grp l 1 L)) (vOf (grp l 2 L)) (vOf (grp l 3 L)) a) +
          absSum (prods (l.drop (4 * L))) ≤ (2 : ℚ) ^ (24 : ℕ) := by
        linarith [hsplitA]
      obtain ⟨r1, r2, r3, r4, r5⟩ := ih (l.drop (4 * L)) _ hflen hstep1 hdrop hbud
      refine ⟨r1, r2, ?_, ?_, ?_⟩
      · linarith [hsplitA]
      · rw [r4, hstep3]
        linarith [hsplitS]
      · rw [List.length_drop] at r5
        omega
    · rw [if_neg hcond]
      exact ⟨inv, hpi, le_refl _, rfl, le_refl _⟩

/-- One single-wide step of the double kernel on exact integer data. -/
theorem step1DD (L : ℕ) (ch : List (ℚ × ℚ)) (a : Acc)
    (hch : ch.length = L) (inv : AccInv L a) (hpi : allInt (prods ch))
    (hb : laneAbs a + absSum (prods ch) ≤ (2 : ℚ) ^ (24 : ℕ)) :
    AccInv L (DotKernelDouble.Update1 (wOf ch) (vOf ch) a) ∧
    laneAbs (DotKernelDouble.Update1 (wOf ch) (vOf ch) a) ≤
      laneAbs a + absSum (prods ch) ∧
    laneSum (DotKernelDouble.Update1 (wOf ch) (vOf ch) a) =
      laneSum a + listSum (prods ch) := by
  obtain ⟨hl0, hl1, hl2, hl3, hi0, hi1, hi2, hi3, hc0, hc1, hc2, hc3⟩ := inv
  have hs0 := absSum_nonneg a.s0
  have hs1 := absSum_nonneg a.s1
  have hs2 := absSum_nonneg a.s2
  have hs3 := absSum_nonneg a.s3
  rw [laneAbs] at hb
  have hG := groupDD L ch a.s0 hch hl0 hpi hi0 (by linarith)
  have hF := zipAdd_facts L (prods ch) a.s0 (by rw [prods_length, hch]) hl0 hpi hi0
  have hup_s0 : (DotKernelDouble.Update1 (wOf ch) (vOf ch) a).s0 =
      vMulAdd round64 (wOf ch) (vOf ch) a.s0 := rfl
  have hup_s1 : (DotKernelDouble.Update1 (wOf ch) (vOf ch) a).s1 = a.s1 := rfl
  have hup_s2 : (DotKernelDouble.Update1 (wOf ch) (vOf ch) a).s2 = a.s2 := rfl
  have hup_s3 : (DotKernelDouble.Update1 (wOf ch) (vOf ch) a).s3 = a.s3 := rfl
  refine ⟨⟨?_, hl1, hl2, hl3, ?_, hi1, hi2, hi3, hc0, hc1, hc2, hc3⟩, ?_, ?_⟩
  · rw [hup_s0, hG]
    exact hF.1
  · rw [hup_s0, hG]
    exact hF.2.1
  · rw [laneAbs, hup_s0, hup_s1, hup_s2, hup_s3, hG, laneAbs]
    linarith [hF.2.2.1]
  · rw [laneSum, hup_s0, hup_s1, hup_s2, hup_s3, hG, hF.2.2.2, laneSum]
    ring

theorem foldChunksDD (L : ℕ) (hL : 0 < L) :
    ∀ (fuel : ℕ) (l : List (ℚ × ℚ)) (a : Acc), l.length ≤ fuel →
    AccInv L a → allInt (prods l) →
    laneAbs a + absSum (prods l) ≤ (2 : ℚ) ^ (24 : ℕ) →
    AccInv L ((padChunks L fuel l).foldl
      (fun acc c => DotKernelDouble.Update1 (wOf c) (vOf c) acc) a) ∧
    laneAbs ((padChunks L fuel l).foldl
      (fun acc c => DotKernelDouble.Update1 (wOf c) (vOf c) acc) a) ≤
      laneAbs a + absSum (prods l) ∧
    laneSum ((padChunks L fuel l).foldl
      (fun acc c => DotKernelDouble.Update1 (wOf c) (vOf c) acc) a) =
      laneSum a + listSum (prods l) := by
  intro fuel
  induction fuel with
  | zero =>
    intro l a hfuel inv hpi hb
    have hl : l = [] := List.length_eq_zero.mp (by omega)
    subst hl
    rw [padChunks, prods, List.map_nil, absSum_nil, listSum_nil, List.foldl_nil]
    exact ⟨inv, by linarith, by ring⟩
  | succ fuel ih =>
    intro l a hfuel inv hpi hb
    rw [padChunks]
    by_cases hemp : l.isEmpty
    · rw [if_pos hemp]
      have hl : l = [] := List.isEmpty_iff.mp hemp
      subst hl
      rw [prods, List.map_nil, absSum_nil, listSum_nil, List.foldl_nil]
      exact ⟨inv, by linarith, by ring⟩
    · rw [if_neg hemp]
      have hlen1 : 1 ≤ l.length := by
        rcases l with _ | ⟨p, l⟩
        · simp at hemp
        · simp
      have hchlen : (l.take L ++ List.replicate (L - l.length) ((0:ℚ), (0:ℚ))).length = L := by
        rw [List.length_append, List.length_replicate, List.length_take]
        omega
      have hchprods : prods (l.take L ++ List.replicate (L - l.length) ((0:ℚ), (0:ℚ))) =
          prods (l.take L) ++ List.replicate (L - l.length) 0 := by
        rw [prods_append, prods_pad]
      have hpt : allInt (prods (l.take L)) :=
        allInt_mono _ _ (prods_mono _ _ (fun p hp => List.mem_of_mem_take hp)) hpi
      have hchint : allInt (prods (l.take L ++ List.replicate (L - l.length) ((0:ℚ), (0:ℚ)))) := by
        rw [hchprods]
        exact allInt_append _ _ hpt (allInt_replicate_zero _)
      have hchabs : absSum (prods (l.take L ++ List.replicate (L - l.length) ((0:ℚ), (0:ℚ)))) =
          absSum (prods (l.take L)) := by
        rw [hchprods, absSum_append, absSum_replicate_zero, add_zero]
      have hchsum : listSum (prods (l.take L ++ List.replicate (L - l.length) ((0:ℚ), (0:ℚ)))) =
          listSum (prods (l.take L)) := by
        rw [hchprods, listSum_append, listSum_replicate_zero, add_zero]
      have hsplitA : absSum (prods (l.take L)) + absSum (prods (l.drop L)) =
          absSum (prods l) := by
        rw [← absSum_append, ← prods_append, List.take_append_drop]
      have hsplitS : listSum (prods (l.take L)) + listSum (prods (l.drop L)) =
          listSum (prods l) := by
        rw [← listSum_append, ← prods_append, List.take_append_drop]
      have hnnd := absSum_nonneg (prods (l.drop L))
      have hstep := step1DD L _ a hchlen inv hchint (by rw [hchabs]; linarith)
      have hdint : allInt (prods (l.drop L)) :=
        allInt_mono _ _ (prods_mono _ _ (fun p hp => List.mem_of_mem_drop hp)) hpi
      have hflen : (l.drop L).length ≤ fuel := by
        rw [List.length_drop]
        omega
      have hbud : laneAbs (DotKernelDouble.Update1
          (wOf (l.take L ++ List.replicate (L - l.length) ((0:ℚ), (0:ℚ))))
          (vOf (l.take L ++ List.replicate (L - l.length) ((0:ℚ), (0:ℚ)))) a) +
          absSum (prods (l.drop L)) ≤ (2 : ℚ) ^ (24 : ℕ) := by
        have h1 := hstep.2.1
        rw [hchabs] at h1
        linarith
      obtain ⟨r1, r2, r3⟩ := ih (l.drop L) _ hflen hstep.1 hdint hbud
      rw [List.foldl_cons]
      refine ⟨r1, ?_, ?_⟩
      · have h1 := hstep.2.1
        rw [hchabs] at h1
        linarith
      · rw [r3, hstep.2.2, hchsum]
        linarith [hsplitS]

theorem reduceDD (L : ℕ) (a : Acc) (inv : AccInv L a)
    (hb : laneAbs a ≤ (2 : ℚ) ^ (24 : ℕ)) :
    DotKernelDouble.Reduce a = laneSum a := by
  obtain ⟨hl0, hl1, hl2, hl3, hi0, hi1, hi2, hi3, _, _, _, _⟩ := inv
  rw [laneAbs] at hb
  have hs0 := absSum_nonneg a.s0
  have hs1 := absSum_nonneg a.s1
  have hs2 := absSum_nonneg a.s2
  have hs3 := absSum_nonneg a.s3
  have h01 := vAdd_exact round64 round64_exact24 a.s0 a.s1 (by omega) hi0 hi1
    (by linarith)
  have h23 := vAdd_exact round64 round64_exact24 a.s2 a.s3 (by omega) hi2 hi3
    (by linarith)
  have hF01 := zipAdd_facts L a.s0 a.s1 hl0 hl1 hi0 hi1
  have hF23 := zipAdd_facts L a.s2 a.s3 hl2 hl3 hi2 hi3
  have hfin := vAdd_exact round64 round64_exact24
    (List.zipWith (· + ·) a.s0 a.s1) (List.zipWith (· + ·) a.s2 a.s3)
    (by rw [hF01.1, hF23.1]) hF01.2.1 hF23.2.1
    (by linarith [hF01.2.2.1, hF23.2.2.1])
  have hFf := zipAdd_facts L (List.zipWith (· + ·) a.s0 a.s1)
    (List.zipWith (· + ·) a.s2 a.s3) hF01.1 hF23.1 hF01.2.1 hF23.2.1
  rw [DotKernelDouble.Reduce, h01.1, h23.1, hfin.1]
  rw [ReduceSum_exact round64 round64_exact24 _ hFf.2.1
    (by linarith [hFf.2.2.1, hF01.2.2.1, hF23.2.2.1])]
  rw [hFf.2.2.2, hF01.2.2.2, hF23.2.2.2]
  rw [round32, roundP_exact 24 le_rfl _
    (allInt_add _ _ (allInt_add _ _ (listSum_allInt _ hi0) (listSum_allInt _ hi1))
      (allInt_add _ _ (listSum_allInt _ hi2) (listSum_allInt _ hi3))) ?_, laneSum]
  · ring
  · have t0 := abs_listSum_le a.s0
    have t1 := abs_listSum_le a.s1
    have t2 := abs_listSum_le a.s2
    have t3 := abs_listSum_le a.s3
    calc |listSum a.s0 + listSum a.s1 + (listSum a.s2 + listSum a.s3)|
        ≤ |listSum a.s0 + listSum a.s1| + |listSum a.s2 + listSum a.s3| := abs_add _ _
    _ ≤ (|listSum a.s0| + |listSum a.s1|) + (|listSum a.s2| + |listSum a.s3|) := by
        have u1 := abs_add (listSum a.s0) (listSum a.s1)
        have u2 := abs_add (listSum a.s2) (listSum a.s3)
        linarith
    _ ≤ (2 : ℚ) ^ (24 : ℕ) := by linarith

/-- The double kernel run on an exact bounded integer dot product is exact. -/
theorem runDD_exact (N : ℕ) (hN : 0 < N) (w v : List ℚ)
    (hpi : allInt (prods (List.zip w v)))
    (hb : absSum (prods (List.zip w v)) ≤ (2 : ℚ) ^ (24 : ℕ)) :
    runDotDouble N w v = listSum (prods (List.zip w v)) := by
  rw [runDotDouble, DecompressAndCall]
  have hML := mainLoopDD N (List.zip w v).length (List.zip w v) (Acc.init N)
    le_rfl (AccInv_init N) hpi (by rw [laneAbs_init]; linarith)
  obtain ⟨m1, m2, m3, m4, m5⟩ := hML
  rw [laneAbs_init] at m3
  rw [laneSum_init] at m4
  have hFC := foldChunksDD N hN
    (mainLoop DotKernelDouble.Update4 N (List.zip w v).length (List.zip w v)
      (Acc.init N)).2.length
    (mainLoop DotKernelDouble.Update4 N (List.zip w v).length (List.zip w v)
      (Acc.init N)).2
    (mainLoop DotKernelDouble.Update4 N (List.zip w v).length (List.zip w v)
      (Acc.init N)).1
    le_rfl m1 m2 (by linarith)
  obtain ⟨f1, f2, f3⟩ := hFC
  rw [reduceDD N _ f1 (by linarith), f3, m4]
  linarith [absSum_nonneg (prods (List.zip w v))]

end GemmaDot

namespace GemmaDot

theorem pow2_24 : pow2 24 = (2 : ℚ) ^ (24 : ℕ) := by
  rw [pow2_eq]
  norm_num

/-! ### Claim theorems -/

set_option maxRecDepth 8000 in
/-- C1 counterexample: the uniform relative-error bounds fail.  For the
compensated kernel (selected for the BF16×F32 type pair) the inputs
`w = [1,1,1,1,1,1]` (BF16), `v = [2^32, -2^32, -288, 0, 2^8+2^-15,
2^5+2^-18]` (f32) at lane count 1 give a result with relative error 1/9
(> 1e-5) against the double-precision reference; for the double kernel
(selected for F32×F32) the inputs `w = [2^9, -2^9, 0, 0, 3*2^-46, 0, 0, 0]`,
`v` all ones give 0 instead of `3*2^-46` — relative error 1 (> 1e-7). -/
theorem c1_counterexample :
    (DotKernelDefault .BF16 .F32 = .compensated ∧
      (1 / 100000 : ℚ) *
          |refDot64 [1, 1, 1, 1, 1, 1]
            [mkRat (2 ^ 32) 1, mkRat (-(2 ^ 32)) 1, mkRat (-288) 1, 0,
             mkRat (2 ^ 23 + 1) (2 ^ 15), mkRat (2 ^ 23 + 1) (2 ^ 18)]| <
        |Dot .BF16 .F32 1 [1, 1, 1, 1, 1, 1] 0
            [mkRat (2 ^ 32) 1, mkRat (-(2 ^ 32)) 1, mkRat (-288) 1, 0,
             mkRat (2 ^ 23 + 1) (2 ^ 15), mkRat (2 ^ 23 + 1) (2 ^ 18)] -
          refDot64 [1, 1, 1, 1, 1, 1]
            [mkRat (2 ^ 32) 1, mkRat (-(2 ^ 32)) 1, mkRat (-288) 1, 0,
             mkRat (2 ^ 23 + 1) (2 ^ 15), mkRat (2 ^ 23 + 1) (2 ^ 18)]|) ∧
    (DotKernelDefault .F32 .F32 = .double ∧
      (1 / 10000000 : ℚ) *
          |refDot64 [mkRat (2 ^ 9) 1, mkRat (-(2 ^ 9)) 1, 0, 0, mkRat 3 (2 ^ 46),
              0, 0, 0] [1, 1, 1, 1, 1, 1, 1, 1]| <
        |Dot .F32 .F32 1 [mkRat (2 ^ 9) 1, mkRat (-(2 ^ 9)) 1, 0, 0,
              mkRat 3 (2 ^ 46), 0, 0, 0] 0 [1, 1, 1, 1, 1, 1, 1, 1] -
          refDot64 [mkRat (2 ^ 9) 1, mkRat (-(2 ^ 9)) 1, 0, 0, mkRat 3 (2 ^ 46),
              0, 0, 0] [1, 1, 1, 1, 1, 1, 1, 1]|) := by
  constructor
  · refine ⟨by decide, ?_⟩
    have h : qlt (qmul (mkRat 1 100000)
        (qabs (refDot64 [1, 1, 1, 1, 1, 1]
          [mkRat (2 ^ 32) 1, mkRat (-(2 ^ 32)) 1, mkRat (-288) 1, 0,
           mkRat (2 ^ 23 + 1) (2 ^ 15), mkRat (2 ^ 23 + 1) (2 ^ 18)])))
        (qabs (qsub (Dot .BF16 .F32 1 [1, 1, 1, 1, 1, 1] 0
          [mkRat (2 ^ 32) 1, mkRat (-(2 ^ 32)) 1, mkRat (-288) 1, 0,
           mkRat (2 ^ 23 + 1) (2 ^ 15), mkRat (2 ^ 23 + 1) (2 ^ 18)])
          (refDot64 [1, 1, 1, 1, 1, 1]
          [mkRat (2 ^ 32) 1, mkRat (-(2 ^ 32)) 1, mkRat (-288) 1, 0,
           mkRat (2 ^ 23 + 1) (2 ^ 15), mkRat (2 ^ 23 + 1) (2 ^ 18)]))) = true := by
      decide
    rw [qlt_iff, qmul_eq, qabs_eq, qabs_eq, qsub_eq,
      show (mkRat 1 100000 : ℚ) = 1 / 100000 by rw [Rat.mkRat_eq_div]; norm_num] at h
    exact h
  · refine ⟨by decide, ?_⟩
    have h : qlt (qmul (mkRat 1 10000000)
        (qabs (refDot64 [mkRat (2 ^ 9) 1, mkRat (-(2 ^ 9)) 1, 0, 0,
          mkRat 3 (2 ^ 46), 0, 0, 0] [1, 1, 1, 1, 1, 1, 1, 1])))
        (qabs (qsub (Dot .F32 .F32 1 [mkRat (2 ^ 9) 1, mkRat (-(2 ^ 9)) 1, 0, 0,
          mkRat 3 (2 ^ 46), 0, 0, 0] 0 [1, 1, 1, 1, 1, 1, 1, 1])
          (refDot64 [mkRat (2 ^ 9) 1, mkRat (-(2 ^ 9)) 1, 0, 0,
          mkRat 3 (2 ^ 46), 0, 0, 0] [1, 1, 1, 1, 1, 1, 1, 1]))) = true := by
      decide
    rw [qlt_iff, qmul_eq, qabs_eq, qabs_eq, qsub_eq,
      show (mkRat 1 10000000 : ℚ) = 1 / 10000000 by rw [Rat.mkRat_eq_div]; norm_num] at h
    exact h

/-- C1 (amended): no uniform relative-error bound holds for all inputs
(cancellation makes the error unbounded); the nearby guarantee that does
hold: whenever every product is an integer and the products' absolute sum is
at most `2^24` (so that no rounding occurs), both kernels return the exact
dot product — relative error zero, within any stated bound. -/
theorem c1_amended_exact_on_integers (N : ℕ) (hN : 0 < N) (w v : List ℚ)
    (hint : allInt (prods (List.zip w v)))
    (hbound : qle (absSum (prods (List.zip w v))) (pow2 24) = true) :
    runDotCompensatedF32 N w v = dotExact w v ∧
    runDotDouble N w v = dotExact w v := by
  have hb : absSum (prods (List.zip w v)) ≤ (2 : ℚ) ^ (24 : ℕ) := by
    have h := (qle_iff _ _).mp hbound
    rwa [pow2_24] at h
  rw [dotExact]
  exact ⟨runCC_exact N hN w v hint hb, runDD_exact N hN w v hint hb⟩

theorem c1_amended_exact_on_integers_witness :
    runDotCompensatedF32 2 [1, 1] [1, 1] = dotExact [1, 1] [1, 1] ∧
    runDotDouble 2 [1, 1] [1, 1] = dotExact [1, 1] [1, 1] :=
  c1_amended_exact_on_integers 2 (by norm_num) [1, 1] [1, 1] (by decide) (by decide)

/-- C2: for the single-precision inputs `w = [1,2,3,4]`, `v = [4,3,2,1]`
(length 4), `Dot` returns exactly 20.0 both when evaluated with
`DotKernelDouble` and when evaluated with `DotKernelCompensated`, at every
lane count. -/
theorem c2_small_dot_exact (N : ℕ) (hN : 0 < N) :
    runDotCompensatedF32 N [1, 2, 3, 4] [4, 3, 2, 1] = 20 ∧
    runDotDouble N [1, 2, 3, 4] [4, 3, 2, 1] = 20 := by
  have hpi : allInt (prods (List.zip [(1 : ℚ), 2, 3, 4] [(4 : ℚ), 3, 2, 1])) := by
    decide
  have hb0 : qle (absSum (prods (List.zip [(1 : ℚ), 2, 3, 4] [(4 : ℚ), 3, 2, 1])))
      (pow2 24) = true := by decide
  have hb : absSum (prods (List.zip [(1 : ℚ), 2, 3, 4] [(4 : ℚ), 3, 2, 1])) ≤
      (2 : ℚ) ^ (24 : ℕ) := by
    have h := (qle_iff _ _).mp hb0
    rwa [pow2_24] at h
  have hsum : listSum (prods (List.zip [(1 : ℚ), 2, 3, 4] [(4 : ℚ), 3, 2, 1])) = 20 := by
    decide
  exact ⟨by rw [runCC_exact N hN _ _ hpi hb, hsum],
    by rw [runDD_exact N hN _ _ hpi hb, hsum]⟩

theorem c2_small_dot_exact_witness :
    runDotCompensatedF32 3 [1, 2, 3, 4] [4, 3, 2, 1] = 20 ∧
    runDotDouble 3 [1, 2, 3, 4] [4, 3, 2, 1] = 20 :=
  c2_small_dot_exact 3 (by norm_num)

/-- C3: the kernel used by `Dot` is determined by the operand type pair
alone: `DotKernelDouble` exactly when `CanDecompressToDouble` holds of the
pair, `DotKernelCompensated` otherwise, and the run of `Dot` on any
arguments is fully determined by that type-level choice (no runtime
dependence of the selection on the data). -/
theorem c3_kernel_selection (wt vt : GType) (N : ℕ) (w : List ℚ) (wofs : ℕ)
    (v : List ℚ) :
    (DotKernelDefault wt vt = .double ↔ CanDecompressToDouble wt vt = true) ∧
    (DotKernelDefault wt vt = .compensated ↔ CanDecompressToDouble wt vt = false) ∧
    Dot wt vt N w wofs v =
      (match DotKernelDefault wt vt with
       | .double => runDotDouble N ((w.drop wofs).take v.length) v
       | .compensated => runDotCompensated wt vt N ((w.drop wofs).take v.length) v) := by
  refine ⟨?_, ?_, rfl⟩
  · rw [DotKernelDefault]
    cases h : CanDecompressToDouble wt vt <;> simp
  · rw [DotKernelDefault]
    cases h : CanDecompressToDouble wt vt <;> simp

/-- C4 counterexample: at `w = v = [0]` (lane count 1) the signed sum rounds
to exactly zero and the absolute-product sum is also zero, yet
`ConditionNumber` returns positive infinity — contradicting the claim that
infinity is returned only when the absolute-product sum is positive. -/
theorem c4_counterexample :
    ConditionNumber 1 [0] [0] = CondResult.inf ∧ condAbs 1 [0] [0] = 0 ∧
    ¬ (ConditionNumber 1 [0] [0] = CondResult.inf ↔
        (condDiv 1 [0] [0] = 0 ∧ 0 < condAbs 1 [0] [0])) := by
  decide

/-- C4 (amended): `ConditionNumber` returns positive infinity exactly when
the cascaded signed product sum reduces to zero — regardless of the
absolute-product sum — and in every other case returns the finite
double-precision ratio `2·sum(|w.*v|)/|sum(w.*v)|`. -/
theorem c4_amended_inf_iff (N : ℕ) (w v : List ℚ) :
    (ConditionNumber N w v = CondResult.inf ↔ condDiv N w v = 0) ∧
    (condDiv N w v ≠ 0 →
      ConditionNumber N w v = CondResult.val (round64 (qdiv
        (qmul (ofInt 2) (condAbs N w v)) (condDiv N w v)))) := by
  constructor
  · rw [ConditionNumber]
    by_cases h : condDiv N w v = 0
    · simp [h]
    · simp [h]
  · intro h
    rw [ConditionNumber, if_neg h]

theorem c4_amended_inf_iff_witness :
    (ConditionNumber 1 [1] [1] = CondResult.inf ↔ condDiv 1 [1] [1] = 0) ∧
    ConditionNumber 1 [1] [1] = CondResult.val (round64 (qdiv
      (qmul (ofInt 2) (condAbs 1 [1] [1])) (condDiv 1 [1] [1]))) :=
  ⟨(c4_amended_inf_iff 1 [1] [1]).1, (c4_amended_inf_iff 1 [1] [1]).2 (by decide)⟩

/-- C6: whenever the reduced signed sum of `v` is nonzero, the
single-operand `ConditionNumber` overload returns the double-precision
ratio `2·sum(|v|)/|sum(v)|` built from its own cascaded sums (no product
step); and it is a different function from the two-operand form applied to
`(v, v)`, as witnessed at `v = [2, -3]`. -/
theorem c6_single_operand_formula :
    (∀ (N : ℕ) (v : List ℚ), condDivV N v ≠ 0 →
      ConditionNumberV N v = CondResult.val (round64 (qdiv
        (qmul (ofInt 2) (condAbsV N v)) (condDivV N v)))) ∧
    ConditionNumberV 1 [2, -3] ≠ ConditionNumber 1 [2, -3] [2, -3] := by
  constructor
  · intro N v h
    rw [ConditionNumberV, if_neg h]
  · decide

theorem c6_single_operand_formula_witness :
    condDivV 1 [5] ≠ 0 ∧
    ConditionNumberV 1 [5] = CondResult.val (round64 (qdiv
      (qmul (ofInt 2) (condAbsV 1 [5])) (condDivV 1 [5]))) :=
  ⟨by decide, c6_single_operand_formula.1 1 [5] (by decide)⟩

/-- C7: on the full-precision (float) path, the compensated kernel's
four-wide update computes, for each of the four accumulator groups `i`, the
product and its exact error by `TwoProducts`, adds the product into `sum_i`
by `TwoSums`, and adds both residuals into the paired compensation register
`comp_i`; no accumulator outside group `i` is touched by group `i`'s data. -/
theorem c7_update4_f32_structure (w0 w1 w2 w3 v0 v1 v2 v3 : Vec) (a : Acc) :
    DotKernelCompensated.Update4 w0 w1 w2 w3 v0 v1 v2 v3 a =
      { s0 := (TwoSums round32 (TwoProducts round32 w0 v0).1 a.s0).1
        s1 := (TwoSums round32 (TwoProducts round32 w1 v1).1 a.s1).1
        s2 := (TwoSums round32 (TwoProducts round32 w2 v2).1 a.s2).1
        s3 := (TwoSums round32 (TwoProducts round32 w3 v3).1 a.s3).1
        c0 := vAdd round32 a.c0 (vAdd round32 (TwoProducts round32 w0 v0).2
          (TwoSums round32 (TwoProducts round32 w0 v0).1 a.s0).2)
        c1 := vAdd round32 a.c1 (vAdd round32 (TwoProducts round32 w1 v1).2
          (TwoSums round32 (TwoProducts round32 w1 v1).1 a.s1).2)
        c2 := vAdd round32 a.c2 (vAdd round32 (TwoProducts round32 w2 v2).2
          (TwoSums round32 (TwoProducts round32 w2 v2).1 a.s2).2)
        c3 := vAdd round32 a.c3 (vAdd round32 (TwoProducts round32 w3 v3).2
          (TwoSums round32 (TwoProducts round32 w3 v3).1 a.s3).2) } := rfl

/-- C8: on the narrow-widened (BF16) path, products are formed by
`WidenMulPairwiseAdd` — a widening pairwise multiply-add with no error-free
product transform — and only the summation residual from `TwoSums` is added
to the compensation register, in both the four-wide and single-wide
updates. -/
theorem c8_update_bf16_structure (w0 w1 w2 w3 v0 v1 v2 v3 : Vec) (a : Acc) :
    DotKernelCompensated.Update4BF16 w0 w1 w2 w3 v0 v1 v2 v3 a =
      { s0 := (TwoSums round32 (DotKernelCompensated.WidenMulPairwiseAdd w0 v0) a.s0).1
        s1 := (TwoSums round32 (DotKernelCompensated.WidenMulPairwiseAdd w1 v1) a.s1).1
        s2 := (TwoSums round32 (DotKernelCompensated.WidenMulPairwiseAdd w2 v2) a.s2).1
        s3 := (TwoSums round32 (DotKernelCompensated.WidenMulPairwiseAdd w3 v3) a.s3).1
        c0 := vAdd round32 a.c0
          (TwoSums round32 (DotKernelCompensated.WidenMulPairwiseAdd w0 v0) a.s0).2
        c1 := vAdd round32 a.c1
          (TwoSums round32 (DotKernelCompensated.WidenMulPairwiseAdd w1 v1) a.s1).2
        c2 := vAdd round32 a.c2
          (TwoSums round32 (DotKernelCompensated.WidenMulPairwiseAdd w2 v2) a.s2).2
        c3 := vAdd round32 a.c3
          (TwoSums round32 (DotKernelCompensated.WidenMulPairwiseAdd w3 v3) a.s3).2 } ∧
    DotKernelCompensated.Update1BF16 w0 v0 a =
      { a with
        s0 := (TwoSums round32 (DotKernelCompensated.WidenMulPairwiseAdd w0 v0) a.s0).1
        c0 := vAdd round32 a.c0
          (TwoSums round32 (DotKernelCompensated.WidenMulPairwiseAdd w0 v0) a.s0).2 } :=
  ⟨rfl, rfl⟩

/-- C9: the `CompressedArray` adapter returns the stored scale times the
unscaled reduction (one float multiply, applied once, after the
reduction); the raw-pointer and fixed-capacity-array adapters apply no
scale. -/
theorem c9_adapters_scale (mt wt vt : GType) (N : ℕ) (ca : CompressedArrayM)
    (wofs : ℕ) (w v : List ℚ) :
    DotCompressedArray mt vt N ca wofs v =
      round32 (qmul ca.scale (Dot mt vt N ca.data wofs v)) ∧
    DotPtrs wt vt N w v = Dot wt vt N w 0 v ∧
    DotStdArray vt N w wofs v = Dot .F32 vt N w wofs v :=
  ⟨rfl, rfl, rfl⟩

/-- C10: on empty input both `ConditionNumber` overloads return positive
infinity: the signed and absolute cascaded sums reduce to exactly zero, so
the zero-divisor branch is taken. -/
theorem c10_empty_inf (N : ℕ) :
    ConditionNumber N [] [] = CondResult.inf ∧
    ConditionNumberV N [] = CondResult.inf ∧
    condDiv N [] [] = 0 ∧ condAbs N [] [] = 0 ∧
    condDivV N [] = 0 ∧ condAbsV N [] = 0 := by
  have hstate : condState N [] [] = CAcc.init N := rfl
  have hstateV : condStateV N [] = CAcc.init N := rfl
  have hsum : (CAcc.init N).sum = List.replicate N 0 := rfl
  have hsumErr : (CAcc.init N).sumErr = List.replicate N 0 := rfl
  have hsumAbs : (CAcc.init N).sumAbs = List.replicate N 0 := rfl
  have hsumAbsErr : (CAcc.init N).sumAbsErr = List.replicate N 0 := rfl
  have hred : ReduceCascadedSums (List.replicate N 0) (List.replicate N 0) = 0 := by
    rw [ReduceCascadedSums, ReduceSum_zeros round32 round32_exact24, qadd_eq,
      add_zero, round32, roundSig_zero]
  have hdiv : condDiv N [] [] = 0 := by
    rw [condDiv, hstate, hsum, hsumErr, hred, qabs_eq, abs_zero]
  have habs : condAbs N [] [] = 0 := by
    rw [condAbs, hstate, hsumAbs, hsumAbsErr, hred]
  have hdivV : condDivV N [] = 0 := by
    rw [condDivV, hstateV, hsum, hsumErr, hred, qabs_eq, abs_zero]
  have habsV : condAbsV N [] = 0 := by
    rw [condAbsV, hstateV, hsumAbs, hsumAbsErr, hred]
  refine ⟨?_, ?_, hdiv, habs, hdivV, habsV⟩
  · rw [ConditionNumber, if_pos hdiv]
  · rw [ConditionNumberV, if_pos hdivV]

end GemmaDot

